import Mathlib

/-!
IOAM collector: field decoder and report correlator

A shallow embedding of `ioam-collector.go`:

* `ParseNode` (the field decoder) is translated statement by statement;
* `Server.Report` (the report correlator) is translated to a function from a
  finite sequence of receive results to the sequence of calls it makes on its
  collaborators (the gRPC stream and the tracing sink) and its return value.

Go values are represented as follows.  Unsigned integers are natural numbers
(every numeric field is widened to `uint64` before it is printed, so no
arithmetic can wrap).  A byte is a `Fin 256`.  A Go slice that may be `nil` is
an `Option (List _)`, a pointer that may be `nil` is an `Option _`, and the
generated protobuf getters return the zero value on a `nil` receiver.
-/

namespace IoamCollector

/-! ## Go library functions used by the program -/

/-- A Go `byte`. -/
abbrev Byte := Fin 256

/-- Conversion `byte(v)` of an unsigned integer: the low eight bits. -/
def byte (v : Nat) : Byte := ⟨v % 256, Nat.mod_lt _ (by decide)⟩

/-- A Go `[]byte`; `none` is the `nil` slice. -/
abbrev Bytes := Option (List Byte)

/-- The elements a `range` loop over the slice visits (none for `nil`). -/
def Bytes.elems : Bytes → List Byte
  | none => []
  | some l => l

/-- The function `strconv.FormatUint(i, base)` for `2 ≤ base ≤ 10`: the digits of `i`,
most significant first, produced by repeated division. -/
def FormatUint (i : Nat) (base : Nat) : String :=
  String.mk (Nat.toDigits base i)

/-- The function `strconv.Itoa(i)` for a non-negative `i`. -/
def Itoa (i : Nat) : String := FormatUint i 10

/-- The constant `hextable` of `encoding/hex`. -/
def hextable : List Char := "0123456789abcdef".data

/-- Indexing `hextable[i]`. -/
def hexdigit (i : Nat) : Char := hextable.getD i '0'

/-- The function `hex.Encode`: two characters per source byte, `hextable[v>>4]` then
`hextable[v&0x0f]`. -/
def Encode : List Byte → List Char
  | [] => []
  | v :: rest => hexdigit (v.val >>> 4) :: hexdigit (v.val &&& 0x0f) :: Encode rest

/-- The function `hex.EncodeToString(src)`. -/
def EncodeToString (src : Bytes) : String := String.mk (Encode src.elems)

/-- The function `binary.BigEndian.PutUint64(b, v)`: the eight bytes written to `b`. -/
def PutUint64 (v : Nat) : List Byte :=
  [byte (v >>> 56), byte (v >>> 48), byte (v >>> 40), byte (v >>> 32),
   byte (v >>> 24), byte (v >>> 16), byte (v >>> 8), byte v]

/-! ## Protobuf messages of `ioamAPI` and their getters -/

/-- Message `Opaque` (the opaque state snapshot). -/
structure Opaque where
  SchemaId : Nat
  Data : Bytes
deriving DecidableEq, Repr

/-- Message `IOAMNode` (one hop record). -/
structure IOAMNode where
  HopLimit : Nat
  Id : Nat
  IdWide : Nat
  IngressId : Nat
  IngressIdWide : Nat
  EgressId : Nat
  EgressIdWide : Nat
  TimestampSecs : Nat
  TimestampFrac : Nat
  TransitDelay : Nat
  NamespaceData : Bytes
  NamespaceDataWide : Bytes
  QueueDepth : Nat
  CsumComp : Nat
  BufferOccupancy : Nat
  OSS : Option Opaque
deriving DecidableEq, Repr

/-- Message `IOAMTrace` (one telemetry report). -/
structure IOAMTrace where
  TraceId_High : Nat
  TraceId_Low : Nat
  SpanId : Nat
  NamespaceId : Nat
  BitField : Nat
  Nodes : List (Option IOAMNode)
deriving DecidableEq, Repr

def Opaque.GetSchemaId : Option Opaque → Nat
  | some x => x.SchemaId
  | none => 0

def Opaque.GetData : Option Opaque → Bytes
  | some x => x.Data
  | none => none

namespace IOAMNode

def GetHopLimit : Option IOAMNode → Nat
  | some x => x.HopLimit
  | none => 0

def GetId : Option IOAMNode → Nat
  | some x => x.Id
  | none => 0

def GetIdWide : Option IOAMNode → Nat
  | some x => x.IdWide
  | none => 0

def GetIngressId : Option IOAMNode → Nat
  | some x => x.IngressId
  | none => 0

def GetIngressIdWide : Option IOAMNode → Nat
  | some x => x.IngressIdWide
  | none => 0

def GetEgressId : Option IOAMNode → Nat
  | some x => x.EgressId
  | none => 0

def GetEgressIdWide : Option IOAMNode → Nat
  | some x => x.EgressIdWide
  | none => 0

def GetTimestampSecs : Option IOAMNode → Nat
  | some x => x.TimestampSecs
  | none => 0

def GetTimestampFrac : Option IOAMNode → Nat
  | some x => x.TimestampFrac
  | none => 0

def GetTransitDelay : Option IOAMNode → Nat
  | some x => x.TransitDelay
  | none => 0

def GetNamespaceData : Option IOAMNode → Bytes
  | some x => x.NamespaceData
  | none => none

def GetNamespaceDataWide : Option IOAMNode → Bytes
  | some x => x.NamespaceDataWide
  | none => none

def GetQueueDepth : Option IOAMNode → Nat
  | some x => x.QueueDepth
  | none => 0

def GetCsumComp : Option IOAMNode → Nat
  | some x => x.CsumComp
  | none => 0

def GetBufferOccupancy : Option IOAMNode → Nat
  | some x => x.BufferOccupancy
  | none => 0

def GetOSS : Option IOAMNode → Option Opaque
  | some x => x.OSS
  | none => none

end IOAMNode

open IOAMNode

/-! ## The mask constants -/

def MASK_BIT0 : Nat := 1 <<< 31
def MASK_BIT1 : Nat := 1 <<< 30
def MASK_BIT2 : Nat := 1 <<< 29
def MASK_BIT3 : Nat := 1 <<< 28
def MASK_BIT4 : Nat := 1 <<< 27
def MASK_BIT5 : Nat := 1 <<< 26
def MASK_BIT6 : Nat := 1 <<< 25
def MASK_BIT7 : Nat := 1 <<< 24
def MASK_BIT8 : Nat := 1 <<< 23
def MASK_BIT9 : Nat := 1 <<< 22
def MASK_BIT10 : Nat := 1 <<< 21
def MASK_BIT11 : Nat := 1 <<< 20
def MASK_BIT22 : Nat := 1 <<< 9

/-! ## The field decoder -/

/-- The function `ParseNode(node, fields)`: thirteen conditional appends to `str`. -/
def ParseNode (node : Option IOAMNode) (fields : Nat) : String :=
  let str := ""
  let str := if (fields &&& MASK_BIT0) ≠ 0 then
      (str ++ ("HopLimit=" ++ FormatUint (GetHopLimit node) 10 ++ "; "))
        ++ ("Id=" ++ FormatUint (GetId node) 10 ++ "; ")
    else str
  let str := if (fields &&& MASK_BIT1) ≠ 0 then
      (str ++ ("IngressId=" ++ FormatUint (GetIngressId node) 10 ++ "; "))
        ++ ("EgressId=" ++ FormatUint (GetEgressId node) 10 ++ "; ")
    else str
  let str := if (fields &&& MASK_BIT2) ≠ 0 then
      str ++ ("TimestampSecs=" ++ FormatUint (GetTimestampSecs node) 10 ++ "; ")
    else str
  let str := if (fields &&& MASK_BIT3) ≠ 0 then
      str ++ ("TimestampFrac=" ++ FormatUint (GetTimestampFrac node) 10 ++ "; ")
    else str
  let str := if (fields &&& MASK_BIT4) ≠ 0 then
      str ++ ("TransitDelay=" ++ FormatUint (GetTransitDelay node) 10 ++ "; ")
    else str
  let str := if (fields &&& MASK_BIT5) ≠ 0 then
      str ++ ("NamespaceData=0x" ++ EncodeToString (GetNamespaceData node) ++ "; ")
    else str
  let str := if (fields &&& MASK_BIT6) ≠ 0 then
      str ++ ("QueueDepth=" ++ FormatUint (GetQueueDepth node) 10 ++ "; ")
    else str
  let str := if (fields &&& MASK_BIT7) ≠ 0 then
      str ++ ("CsumComp=" ++ FormatUint (GetCsumComp node) 10 ++ "; ")
    else str
  let str := if (fields &&& MASK_BIT8) ≠ 0 then
      (str ++ ("HopLimit=" ++ FormatUint (GetHopLimit node) 10 ++ "; "))
        ++ ("IdWide=" ++ FormatUint (GetIdWide node) 10 ++ "; ")
    else str
  let str := if (fields &&& MASK_BIT9) ≠ 0 then
      (str ++ ("IngressIdWide=" ++ FormatUint (GetIngressIdWide node) 10 ++ "; "))
        ++ ("EgressIdWide=" ++ FormatUint (GetEgressIdWide node) 10 ++ "; ")
    else str
  let str := if (fields &&& MASK_BIT10) ≠ 0 then
      str ++ ("NamespaceDataWide=0x" ++ EncodeToString (GetNamespaceDataWide node) ++ "; ")
    else str
  let str := if (fields &&& MASK_BIT11) ≠ 0 then
      str ++ ("BufferOccupancy=" ++ FormatUint (GetBufferOccupancy node) 10 ++ "; ")
    else str
  let str := if (fields &&& MASK_BIT22) ≠ 0 then
      (str ++ ("OpaqueStateSchemaId="
          ++ FormatUint (Opaque.GetSchemaId (GetOSS node)) 10 ++ "; "))
        ++ ("OpaqueStateData=0x" ++ EncodeToString (Opaque.GetData (GetOSS node)) ++ "; ")
    else str
  str

/-! ## The table-driven reference decoder of the specification -/

/-- One row of the field table: the bit number of the group and the
`(name, value)` attributes it emits for a hop. -/
structure FieldGroup where
  bit : Nat
  attrs : Option IOAMNode → List (String × String)

/-- Unsigned decimal rendering. -/
def decimal (n : Nat) : String := FormatUint n 10

/-- Lowercase hex rendering with the `0x` prefix. -/
def hex0x (b : Bytes) : String := "0x" ++ EncodeToString b

/-- The field table of the specification, in canonical order. -/
def fieldTable : List FieldGroup :=
  [ ⟨0, fun n => [("HopLimit", decimal (GetHopLimit n)), ("Id", decimal (GetId n))]⟩,
    ⟨1, fun n => [("IngressId", decimal (GetIngressId n)),
                  ("EgressId", decimal (GetEgressId n))]⟩,
    ⟨2, fun n => [("TimestampSecs", decimal (GetTimestampSecs n))]⟩,
    ⟨3, fun n => [("TimestampFrac", decimal (GetTimestampFrac n))]⟩,
    ⟨4, fun n => [("TransitDelay", decimal (GetTransitDelay n))]⟩,
    ⟨5, fun n => [("NamespaceData", hex0x (GetNamespaceData n))]⟩,
    ⟨6, fun n => [("QueueDepth", decimal (GetQueueDepth n))]⟩,
    ⟨7, fun n => [("CsumComp", decimal (GetCsumComp n))]⟩,
    ⟨8, fun n => [("HopLimit", decimal (GetHopLimit n)), ("IdWide", decimal (GetIdWide n))]⟩,
    ⟨9, fun n => [("IngressIdWide", decimal (GetIngressIdWide n)),
                  ("EgressIdWide", decimal (GetEgressIdWide n))]⟩,
    ⟨10, fun n => [("NamespaceDataWide", hex0x (GetNamespaceDataWide n))]⟩,
    ⟨11, fun n => [("BufferOccupancy", decimal (GetBufferOccupancy n))]⟩,
    ⟨22, fun n => [("OpaqueStateSchemaId", decimal (Opaque.GetSchemaId (GetOSS n))),
                   ("OpaqueStateData", hex0x (Opaque.GetData (GetOSS n)))]⟩ ]

/-- The rendering `Name=Value; ` of one attribute. -/
def segment (a : String × String) : String := a.1 ++ "=" ++ a.2 ++ "; "

/-- The segments of one table row for a hop. -/
def rowSegments (row : FieldGroup) (node : Option IOAMNode) : String :=
  String.join ((row.attrs node).map segment)

/-- The reference decoder: the rows in table order, row `k` tested with
`2^(31-k)`, a set row contributing its segments and an unset row nothing. -/
def tableDecode (node : Option IOAMNode) (mask : Nat) : String :=
  String.join (fieldTable.map fun row =>
    if mask &&& 2 ^ (31 - row.bit) ≠ 0 then rowSegments row node else "")

/-- The thirteen mask constants tested by `ParseNode`, in program order. -/
def definedMasks : List Nat :=
  [MASK_BIT0, MASK_BIT1, MASK_BIT2, MASK_BIT3, MASK_BIT4, MASK_BIT5, MASK_BIT6, MASK_BIT7,
   MASK_BIT8, MASK_BIT9, MASK_BIT10, MASK_BIT11, MASK_BIT22]

/-- The OR of all defined mask constants (`0xFFF00200`). -/
def definedMask : Nat := definedMasks.foldl (· ||| ·) 0

/-- The numeric bit positions of the defined mask constants. -/
def definedPositions : List Nat := [31, 30, 29, 28, 27, 26, 25, 24, 23, 22, 21, 20, 9]

/-- A 32-bit mask with bit `b` set: `m | (1 << b)`. -/
def setBit (m b : Nat) : Nat := m ||| 2 ^ b

/-- A 32-bit mask with bit `b` cleared: `m &^ (1 << b)`. -/
def clearBit (m b : Nat) : Nat := m &&& (0xFFFFFFFF ^^^ 2 ^ b)

/-- A hop with every field present and zero: numeric fields `0`, byte strings
empty, and a sub-record with schema id `0` and empty data. -/
def zeroHop : IOAMNode :=
  { HopLimit := 0, Id := 0, IdWide := 0, IngressId := 0, IngressIdWide := 0, EgressId := 0,
    EgressIdWide := 0, TimestampSecs := 0, TimestampFrac := 0, TransitDelay := 0,
    NamespaceData := some [], NamespaceDataWide := some [], QueueDepth := 0, CsumComp := 0,
    BufferOccupancy := 0, OSS := some { SchemaId := 0, Data := some [] } }

/-- Replaces an absent (`nil`) byte string by the empty one. -/
def presentBytes (b : Bytes) : Bytes := some b.elems

/-- Replaces an absent sub-record by the zero one and its absent data by the
empty byte string. -/
def presentOSS : Option Opaque → Opaque
  | none => { SchemaId := 0, Data := some [] }
  | some o => { o with Data := presentBytes o.Data }

/-- Replaces every absent part of a hop by the corresponding zero value. -/
def present : Option IOAMNode → IOAMNode
  | none => zeroHop
  | some h => { h with NamespaceData := presentBytes h.NamespaceData,
                       NamespaceDataWide := presentBytes h.NamespaceDataWide,
                       OSS := some (presentOSS h.OSS) }

/-- The hop of the specification's worked example. -/
def exampleHop : IOAMNode :=
  { zeroHop with HopLimit := 64, Id := 7, NamespaceData := some [0xAB, 0xCD] }

/-! ## The report correlator -/

/-- The constant `trace.FlagsSampled`. -/
def FlagsSampled : Nat := 0x01

/-- The `trace.SpanContextConfig` filled in by `Report`: a 16-byte trace
identifier, an 8-byte span identifier and the trace flags. -/
structure SpanContextConfig where
  TraceID : List Byte
  SpanID : List Byte
  TraceFlags : Nat
deriving DecidableEq, Repr

/-- A non-`nil` Go `error`: `io.EOF` or any other error value. -/
inductive GoError where
  | EOF
  | other (msg : String)
deriving DecidableEq, Repr

/-- The calls `Report` makes on the stream and on the tracing sink, in
program order. -/
inductive Event where
  | Recv
  | Start (ctx : SpanContextConfig) (spanName : String)
  | SetAttributes (key value : String)
  | End
  | SendAndClose
deriving DecidableEq, Repr

/-- Lines 91-102: the span context built from one request. -/
def spanContext (request : IOAMTrace) : SpanContextConfig :=
  { TraceID := PutUint64 request.TraceId_High ++ PutUint64 request.TraceId_Low,
    SpanID := PutUint64 request.SpanId,
    TraceFlags := FlagsSampled }

/-- Line 110: the attribute key of the hop numbered `i`. -/
def attributeKey (request : IOAMTrace) (i : Nat) : String :=
  "ioam_namespace" ++ FormatUint request.NamespaceId 10 ++ "_node" ++ Itoa i

/-- Lines 109-115: the loop over the nodes, with the counter `i`. -/
def nodeLoop (request : IOAMTrace) : List (Option IOAMNode) → Nat → List Event
  | [], _ => []
  | node :: rest, i =>
    let key := attributeKey request i
    let str := ParseNode node request.BitField
    Event.SetAttributes key str :: nodeLoop request rest (i + 1)

/-- Lines 91-117: the work done for one received request. -/
def handleRequest (request : IOAMTrace) : List Event :=
  Event.Start (spanContext request) "ioam-span"
    :: (nodeLoop request request.Nodes 1 ++ [Event.End])

/-- The method `Server.Report` over a stream whose successive `Recv` calls give the
listed results (`Except.error` carries a non-`nil` error) and whose
`SendAndClose` returns `sendResult` (`none` is `nil`).  The result is the
sequence of calls made and the returned error; it is `none` when the listed
results run out before an error is received, since `Recv` then blocks. -/
def Report (sendResult : Option GoError) :
    List (Except GoError IOAMTrace) → Option (List Event × Option GoError)
  | [] => none
  | Except.error GoError.EOF :: _ => some ([Event.Recv, Event.SendAndClose], sendResult)
  | Except.error err :: _ => some ([Event.Recv], some err)
  | Except.ok request :: rest =>
    match Report sendResult rest with
    | none => none
    | some (events, ret) => some (Event.Recv :: (handleRequest request ++ events), ret)

/-- The methods `TraceID.String` and `SpanID.String` of the tracing library:
the lowercase hex encoding of the identifier bytes. -/
def idString (id : List Byte) : String := EncodeToString (some id)

/-- The unsigned integer whose big-endian byte representation is `bs`. -/
def bigEndianValue (bs : List Byte) : Nat := bs.foldl (fun acc b => acc * 256 + b.val) 0

/-- The zero-padded hex rendering of `v` on `digits` digits. -/
def hexPadded : Nat → Nat → List Char
  | 0, _ => []
  | d + 1, v => hexdigit (v / 16 ^ d % 16) :: hexPadded d v

/-- The number of attributes a span of the tracing SDK keeps: the tracer
provider built in `main` (lines 53-59) sets no span limits, so the default of
the SDK applies. -/
def AttributeCountLimit : Nat := 128

/-- The attribute store of a recording span of the tracing SDK: setting a key
that is already present replaces its value; a new key is appended while the
store holds fewer than `AttributeCountLimit` attributes and is dropped once the
store is full. -/
def setAttribute (attrs : List (String × String)) (key value : String) :
    List (String × String) :=
  if attrs.any (fun p => p.1 == key) then
    attrs.map (fun p => if p.1 == key then (key, value) else p)
  else if AttributeCountLimit ≤ attrs.length then attrs
  else attrs ++ [(key, value)]

/-- The effect of one call on the attribute store of the span. -/
def applyEvent (attrs : List (String × String)) : Event → List (String × String)
  | Event.SetAttributes k v => setAttribute attrs k v
  | _ => attrs

/-- The attributes held by the span after a sequence of calls on it. -/
def spanAttributes (events : List Event) : List (String × String) :=
  events.foldl applyEvent []

def Event.isStart : Event → Bool
  | Event.Start _ _ => true
  | _ => false

def Event.isEnd : Event → Bool
  | Event.End => true
  | _ => false

def Event.isSetAttributes : Event → Bool
  | Event.SetAttributes _ _ => true
  | _ => false

def Event.key? : Event → Option String
  | Event.SetAttributes k _ => some k
  | _ => none

/-- The number of spans open after a sequence of calls: spans started minus
spans ended. -/
def Event.delta : Event → Int
  | Event.Start _ _ => 1
  | Event.End => -1
  | _ => 0

/-- The calls made for one received request, the receive included. -/
def block (request : IOAMTrace) : List Event :=
  Event.Recv :: Event.Start (spanContext request) "ioam-span"
    :: (nodeLoop request request.Nodes 1 ++ [Event.End])

def openSpans (events : List Event) : Int :=
  (events.countP Event.isStart : Int) - (events.countP Event.isEnd : Int)

/-- The sink protocol, checked along a sequence of calls from the state
`isOpen` (whether a span is open): a span is started only when none is open,
attributes are set and the span is ended only while it is open, and no span
is open at a receive, at the acknowledgment or at the end. -/
def spanProtocol : Bool → List Event → Bool
  | isOpen, [] => !isOpen
  | isOpen, Event.Recv :: es => !isOpen && spanProtocol false es
  | isOpen, Event.Start _ _ :: es => !isOpen && spanProtocol true es
  | isOpen, Event.SetAttributes _ _ :: es => isOpen && spanProtocol true es
  | isOpen, Event.End :: es => isOpen && spanProtocol false es
  | isOpen, Event.SendAndClose :: es => !isOpen && spanProtocol false es

/-- The ten decimal digit characters. -/
def decimalDigits : List Char := "0123456789".data

/-- The value of a decimal digit character. -/
def digitValue (c : Char) : Nat := c.toNat - 48

/-- The number denoted by a string of decimal digits. -/
def decimalValue (cs : List Char) : Nat := cs.foldl (fun acc c => acc * 10 + digitValue c) 0

/-- A report with two hops, and the same report with another first hop. -/
def twoHopReport (first : Option IOAMNode) : IOAMTrace :=
  { TraceId_High := 1, TraceId_Low := 2, SpanId := 3, NamespaceId := 5,
    BitField := MASK_BIT0 ||| MASK_BIT1, Nodes := [first, some zeroHop] }

/-- A report with 130 hops, all `nil`. -/
def longReport : IOAMTrace :=
  { TraceId_High := 1, TraceId_Low := 2, SpanId := 3, NamespaceId := 5,
    BitField := MASK_BIT0, Nodes := List.replicate 130 none }

/-- The report of the specification's worked examples: mask bits 0 and 5, one
hop, and the trace and span identifiers of the identifier example. -/
def exampleReport : IOAMTrace :=
  { TraceId_High := 0x0102030405060708, TraceId_Low := 0x1112131415161718,
    SpanId := 0x2122232425262728, NamespaceId := 123,
    BitField := MASK_BIT0 ||| MASK_BIT5, Nodes := [some exampleHop] }

/-! ## The decoded attributes of a hop -/

/-- Whether the mask selects the row: the test `fields & MASK_BITk != 0`. -/
def rowSet (mask : Nat) (row : FieldGroup) : Prop := mask &&& 2 ^ (31 - row.bit) ≠ 0

instance (mask : Nat) (row : FieldGroup) : Decidable (rowSet mask row) := by
  unfold rowSet; infer_instance

/-- The `(name, value)` attributes the rows of a table emit for a hop and a
mask, in table order. -/
def attrsOf (rows : List FieldGroup) (node : Option IOAMNode) (mask : Nat) :
    List (String × String) :=
  rows.flatMap fun row => if rowSet mask row then row.attrs node else []

/-- The characters of the segment `Name=Value; `. -/
def segmentChars (a : String × String) : List Char :=
  a.1.data ++ '=' :: (a.2.data ++ [';', ' '])

/-- The separator characters of the output format. -/
def separators : List Char := [';', '=', ' ']

/-- An attribute is clean if neither its name nor its value contains a
separator character. -/
def Clean (a : String × String) : Prop :=
  ∀ c ∈ a.1.data ++ a.2.data, c ∉ separators

/-- The function `fromHexChar` of `encoding/hex`: the value of a hex digit. -/
def fromHexChar (c : Char) : Option Nat :=
  if '0' ≤ c ∧ c ≤ '9' then some (c.toNat - '0'.toNat)
  else if 'a' ≤ c ∧ c ≤ 'f' then some (c.toNat - 'a'.toNat + 10)
  else if 'A' ≤ c ∧ c ≤ 'F' then some (c.toNat - 'A'.toNat + 10)
  else none

/-- The function `hex.Decode`: one byte `(a << 4) | b` per pair of hex digits,
failing on an odd length or on a character that is not a hex digit. -/
def Decode : List Char → Option (List Byte)
  | [] => some []
  | [_] => none
  | x :: y :: rest =>
    match fromHexChar x, fromHexChar y, Decode rest with
    | some a, some b, some bytes => some (byte ((a <<< 4) ||| b) :: bytes)
    | _, _, _ => none

/-- Bit position `b` of the 32-bit mask matters to the decoder: for some hop
and some mask, toggling bit `b` of the mask changes the output. -/
def Sensitive (b : Nat) : Prop :=
  b < 32 ∧ ∃ (node : Option IOAMNode) (m : Nat),
    m < 2 ^ 32 ∧ ParseNode node (m ^^^ 2 ^ b) ≠ ParseNode node m

/-- The bit numbers of the field table, in canonical order. -/
def definedBits : List Nat := [0, 1, 2, 3, 4, 5, 6, 7, 8, 9, 10, 11, 22]

/-- The number of attributes of the field group with bit number `k`: two for
the bits 0, 1, 8, 9 and 22, one for the bits 2 to 7, 10 and 11. -/
def groupWeight (k : Nat) : Nat :=
  if k ∈ [0, 1, 8, 9, 22] then 2 else if k ∈ [2, 3, 4, 5, 6, 7, 10, 11] then 1 else 0

/-- The sum of the group weights over the defined bits set in the mask. -/
def segmentCount (mask : Nat) : Nat :=
  (definedBits.map fun k => if mask &&& 2 ^ (31 - k) ≠ 0 then groupWeight k else 0).sum

/-- The number of positions at which `x` is immediately followed by `y`. -/
def countPair (x y : Char) : List Char → Nat
  | a :: b :: rest => (if a = x ∧ b = y then 1 else 0) + countPair x y (b :: rest)
  | _ => 0

/-- Cuts a character sequence at the first occurrence of `c`: the characters
before it and the characters after it. -/
def cutAt (c : Char) : List Char → List Char × List Char
  | [] => ([], [])
  | x :: xs => if x = c then ([], xs) else (x :: (cutAt c xs).1, (cutAt c xs).2)

/-- Reads segments `Name=Value; ` off a character sequence: the name up to the
first `=`, the value up to the next `;`, then one character is skipped. -/
def parseSegmentsAux : Nat → List Char → List (String × String)
  | 0, _ => []
  | _ + 1, [] => []
  | fuel + 1, x :: xs =>
    let nameRest := cutAt '=' (x :: xs)
    let valueRest := cutAt ';' nameRest.2
    (String.mk nameRest.1, String.mk valueRest.1)
      :: parseSegmentsAux fuel (valueRest.2.drop 1)

/-- The segments of an output string, as `(name, value)` pairs. -/
def parseSegments (s : String) : List (String × String) :=
  parseSegmentsAux s.data.length s.data

/-! ## The program as a transformer of its package-level variables -/

/-- The package-level variables of the program (lines 28-40). -/
structure Globals where
  MASK_BIT0 : Nat
  MASK_BIT1 : Nat
  MASK_BIT2 : Nat
  MASK_BIT3 : Nat
  MASK_BIT4 : Nat
  MASK_BIT5 : Nat
  MASK_BIT6 : Nat
  MASK_BIT7 : Nat
  MASK_BIT8 : Nat
  MASK_BIT9 : Nat
  MASK_BIT10 : Nat
  MASK_BIT11 : Nat
  MASK_BIT22 : Nat
deriving DecidableEq, Repr

/-- The values given to the variables by their declarations. -/
def Globals.init : Globals :=
  { MASK_BIT0 := 1 <<< 31, MASK_BIT1 := 1 <<< 30, MASK_BIT2 := 1 <<< 29, MASK_BIT3 := 1 <<< 28,
    MASK_BIT4 := 1 <<< 27, MASK_BIT5 := 1 <<< 26, MASK_BIT6 := 1 <<< 25, MASK_BIT7 := 1 <<< 24,
    MASK_BIT8 := 1 <<< 23, MASK_BIT9 := 1 <<< 22, MASK_BIT10 := 1 <<< 21,
    MASK_BIT11 := 1 <<< 20, MASK_BIT22 := 1 <<< 9 }

/-- The function `ParseNode` over the state of the package-level variables: it
reads the mask variables and contains no assignment to them, so it returns the
state it was given. -/
def ParseNodeSt (node : Option IOAMNode) (fields : Nat) (g : Globals) : String × Globals :=
  let str := ""
  let str := if (fields &&& g.MASK_BIT0) ≠ 0 then
      (str ++ ("HopLimit=" ++ FormatUint (GetHopLimit node) 10 ++ "; "))
        ++ ("Id=" ++ FormatUint (GetId node) 10 ++ "; ")
    else str
  let str := if (fields &&& g.MASK_BIT1) ≠ 0 then
      (str ++ ("IngressId=" ++ FormatUint (GetIngressId node) 10 ++ "; "))
        ++ ("EgressId=" ++ FormatUint (GetEgressId node) 10 ++ "; ")
    else str
  let str := if (fields &&& g.MASK_BIT2) ≠ 0 then
      str ++ ("TimestampSecs=" ++ FormatUint (GetTimestampSecs node) 10 ++ "; ")
    else str
  let str := if (fields &&& g.MASK_BIT3) ≠ 0 then
      str ++ ("TimestampFrac=" ++ FormatUint (GetTimestampFrac node) 10 ++ "; ")
    else str
  let str := if (fields &&& g.MASK_BIT4) ≠ 0 then
      str ++ ("TransitDelay=" ++ FormatUint (GetTransitDelay node) 10 ++ "; ")
    else str
  let str := if (fields &&& g.MASK_BIT5) ≠ 0 then
      str ++ ("NamespaceData=0x" ++ EncodeToString (GetNamespaceData node) ++ "; ")
    else str
  let str := if (fields &&& g.MASK_BIT6) ≠ 0 then
      str ++ ("QueueDepth=" ++ FormatUint (GetQueueDepth node) 10 ++ "; ")
    else str
  let str := if (fields &&& g.MASK_BIT7) ≠ 0 then
      str ++ ("CsumComp=" ++ FormatUint (GetCsumComp node) 10 ++ "; ")
    else str
  let str := if (fields &&& g.MASK_BIT8) ≠ 0 then
      (str ++ ("HopLimit=" ++ FormatUint (GetHopLimit node) 10 ++ "; "))
        ++ ("IdWide=" ++ FormatUint (GetIdWide node) 10 ++ "; ")
    else str
  let str := if (fields &&& g.MASK_BIT9) ≠ 0 then
      (str ++ ("IngressIdWide=" ++ FormatUint (GetIngressIdWide node) 10 ++ "; "))
        ++ ("EgressIdWide=" ++ FormatUint (GetEgressIdWide node) 10 ++ "; ")
    else str
  let str := if (fields &&& g.MASK_BIT10) ≠ 0 then
      str ++ ("NamespaceDataWide=0x" ++ EncodeToString (GetNamespaceDataWide node) ++ "; ")
    else str
  let str := if (fields &&& g.MASK_BIT11) ≠ 0 then
      str ++ ("BufferOccupancy=" ++ FormatUint (GetBufferOccupancy node) 10 ++ "; ")
    else str
  let str := if (fields &&& g.MASK_BIT22) ≠ 0 then
      (str ++ ("OpaqueStateSchemaId="
          ++ FormatUint (Opaque.GetSchemaId (GetOSS node)) 10 ++ "; "))
        ++ ("OpaqueStateData=0x" ++ EncodeToString (Opaque.GetData (GetOSS node)) ++ "; ")
    else str
  (str, g)

/-- The loop over the nodes (lines 109-115), threading the state through the
calls of `ParseNode`. -/
def nodeLoopSt (request : IOAMTrace) :
    List (Option IOAMNode) → Nat → Globals → List Event × Globals
  | [], _, g => ([], g)
  | node :: rest, i, g =>
    let key := attributeKey request i
    let parsed := ParseNodeSt node request.BitField g
    let looped := nodeLoopSt request rest (i + 1) parsed.2
    (Event.SetAttributes key parsed.1 :: looped.1, looped.2)

/-- The method `Server.Report` threading the state: the calls made, the
returned error and the state of the variables when it returns. -/
def ReportSt (sendResult : Option GoError) :
    List (Except GoError IOAMTrace) → Globals
      → Option ((List Event × Option GoError) × Globals)
  | [], _ => none
  | Except.error GoError.EOF :: _, g =>
    some (([Event.Recv, Event.SendAndClose], sendResult), g)
  | Except.error err :: _, g => some (([Event.Recv], some err), g)
  | Except.ok request :: rest, g =>
    let looped := nodeLoopSt request request.Nodes 1 g
    match ReportSt sendResult rest looped.2 with
    | none => none
    | some ((events, ret), g') =>
      some ((Event.Recv :: (Event.Start (spanContext request) "ioam-span"
        :: (looped.1 ++ [Event.End]) ++ events), ret), g')

/-- The form of an emitted value: decimal digits only, or `0x` followed by the
lowercase hex encoding of a byte string. -/
def ValueForm (v : String) : Prop :=
  (∀ c ∈ v.data, c ∈ decimalDigits) ∨ ∃ l : List Byte, v.data = '0' :: 'x' :: Encode l

/-! ## Lemmas on strings and masks -/

theorem ite_append_eq (c : Prop) [Decidable c] (s x : String) :
    (if c then s ++ x else s) = s ++ (if c then x else "") := by
  split <;> simp

theorem ite_append2_eq (c : Prop) [Decidable c] (s x y : String) :
    (if c then (s ++ x) ++ y else s) = s ++ (if c then x ++ y else "") := by
  split <;> simp [String.append_assoc]

/-- The decoder agrees with the table-driven decoder. -/
theorem ParseNode_eq_tableDecode (node : Option IOAMNode) (fields : Nat) :
    ParseNode node fields = tableDecode node fields := by
  have h5 : ∀ s : String, "NamespaceData=" ++ ("0x" ++ s) = "NamespaceData=0x" ++ s :=
    fun s => by rw [← String.append_assoc]; rfl
  have h10 : ∀ s : String, "NamespaceDataWide=" ++ ("0x" ++ s) = "NamespaceDataWide=0x" ++ s :=
    fun s => by rw [← String.append_assoc]; rfl
  have h22 : ∀ s : String, "OpaqueStateData=" ++ ("0x" ++ s) = "OpaqueStateData=0x" ++ s :=
    fun s => by rw [← String.append_assoc]; rfl
  simp only [ParseNode, ite_append_eq, ite_append2_eq, tableDecode, fieldTable, List.map,
    String.join, List.foldl, rowSegments, segment, decimal, hex0x, MASK_BIT0, MASK_BIT1,
    MASK_BIT2, MASK_BIT3, MASK_BIT4, MASK_BIT5, MASK_BIT6, MASK_BIT7, MASK_BIT8, MASK_BIT9,
    MASK_BIT10, MASK_BIT11, MASK_BIT22]
  simp [String.append_assoc, h5, h10, h22]

theorem land_two_pow_ne_zero (m k : Nat) : m &&& 2 ^ k ≠ 0 ↔ m.testBit k = true := by
  rw [Nat.and_two_pow]
  cases m.testBit k <;> simp

theorem row_position_mem {row : FieldGroup} (h : row ∈ fieldTable) :
    31 - row.bit ∈ definedPositions := by
  simp only [fieldTable, List.mem_cons, List.mem_singleton, List.not_mem_nil, or_false] at h
  rcases h with h | h | h | h | h | h | h | h | h | h | h | h | h <;> subst h <;> decide

/-- The decoder only looks at the bits of the mask at the defined positions. -/
theorem ParseNode_congr (node : Option IOAMNode) (m m' : Nat)
    (h : ∀ k ∈ definedPositions, m.testBit k = m'.testBit k) :
    ParseNode node m = ParseNode node m' := by
  rw [ParseNode_eq_tableDecode, ParseNode_eq_tableDecode]
  unfold tableDecode
  congr 1
  apply List.map_congr_left
  intro row hrow
  simp only [land_two_pow_ne_zero, h _ (row_position_mem hrow)]

theorem definedMask_testBit : ∀ k ∈ definedPositions, definedMask.testBit k = true := by
  decide

theorem allOnes_testBit : ∀ k ∈ definedPositions, (0xFFFFFFFF : Nat).testBit k = true := by
  decide

theorem two_pow_mem_definedMasks : ∀ k ∈ definedPositions, 2 ^ k ∈ definedMasks := by
  decide

/-! ## Lemmas on decimal rendering and attribute keys -/

theorem toDigitsCore_append (b : Nat) : ∀ (fuel n : Nat) (ds : List Char),
    Nat.toDigitsCore b fuel n ds = Nat.toDigitsCore b fuel n [] ++ ds := by
  intro fuel
  induction fuel with
  | zero => intro n ds; simp [Nat.toDigitsCore]
  | succ f ih =>
    intro n ds
    simp only [Nat.toDigitsCore]
    split
    · simp
    · rw [ih (n / b) (_ :: ds), ih (n / b) [_]]
      simp

theorem digitValue_digitChar (n : Nat) (h : n < 10) : digitValue (Nat.digitChar n) = n := by
  interval_cases n <;> rfl

theorem decimalValue_toDigitsCore : ∀ (fuel n : Nat), n < fuel →
    decimalValue (Nat.toDigitsCore 10 fuel n []) = n := by
  intro fuel
  induction fuel with
  | zero => intro n h; omega
  | succ f ih =>
    intro n h
    simp only [Nat.toDigitsCore]
    split
    · have hn : n < 10 := by omega
      simp [decimalValue, Nat.mod_eq_of_lt hn, digitValue_digitChar n hn]
    · rw [toDigitsCore_append]
      have hrec := ih (n / 10) (by omega)
      simp only [decimalValue] at hrec ⊢
      rw [List.foldl_append, hrec]
      simp [digitValue_digitChar (n % 10) (Nat.mod_lt _ (by decide))]
      omega

theorem digitChar_mem (n : Nat) (h : n < 10) : Nat.digitChar n ∈ decimalDigits := by
  interval_cases n <;> decide

theorem digitChar_ne_zero (n : Nat) (h : n < 10) (h0 : 0 < n) : Nat.digitChar n ≠ '0' := by
  interval_cases n <;> decide

theorem toDigitsCore_digits : ∀ (fuel n : Nat) (ds : List Char),
    (∀ c ∈ ds, c ∈ decimalDigits) →
      ∀ c ∈ Nat.toDigitsCore 10 fuel n ds, c ∈ decimalDigits := by
  intro fuel
  induction fuel with
  | zero => intro n ds h; simpa [Nat.toDigitsCore] using h
  | succ f ih =>
    intro n ds h
    have hd : ∀ c ∈ Nat.digitChar (n % 10) :: ds, c ∈ decimalDigits := by
      intro c hc
      rcases List.mem_cons.1 hc with rfl | hc
      · exact digitChar_mem _ (Nat.mod_lt _ (by decide))
      · exact h c hc
    simp only [Nat.toDigitsCore]
    split
    · exact hd
    · exact ih _ _ hd

theorem toDigitsCore_head : ∀ (fuel n : Nat), n < fuel → 0 < n →
    ∃ c rest, Nat.toDigitsCore 10 fuel n [] = c :: rest ∧ c ≠ '0' := by
  intro fuel
  induction fuel with
  | zero => intro n h; omega
  | succ f ih =>
    intro n h hn
    simp only [Nat.toDigitsCore]
    split
    · have hlt : n < 10 := by omega
      exact ⟨_, [], rfl, by rw [Nat.mod_eq_of_lt hlt]; exact digitChar_ne_zero n hlt hn⟩
    · rw [toDigitsCore_append]
      obtain ⟨c, rest, hc, hne⟩ := ih (n / 10) (by omega) (by omega)
      exact ⟨c, rest ++ [Nat.digitChar (n % 10)], by rw [hc]; rfl, hne⟩

/-- Every character of the decimal rendering is a decimal digit. -/
theorem FormatUint_digits (n : Nat) : ∀ c ∈ (FormatUint n 10).data, c ∈ decimalDigits :=
  toDigitsCore_digits (n + 1) n [] (by simp)

/-- The decimal rendering of a positive number has no leading zero. -/
theorem FormatUint_head (n : Nat) : n = 0 ∨ (FormatUint n 10).data.head? ≠ some '0' := by
  rcases Nat.eq_zero_or_pos n with h | h
  · exact Or.inl h
  · obtain ⟨c, rest, hc, hne⟩ := toDigitsCore_head (n + 1) n (Nat.lt_succ_self n) h
    refine Or.inr ?_
    have hdata : (FormatUint n 10).data = c :: rest := hc
    rw [hdata]
    simpa using hne

theorem hexdigit_mem (i : Nat) (h : i < 16) : hexdigit i ∈ hextable := by
  interval_cases i <;> decide

theorem Encode_length (l : List Byte) : (Encode l).length = 2 * l.length := by
  induction l with
  | nil => rfl
  | cons v rest ih => simp only [Encode, List.length_cons, ih]; omega

/-- Every character of the hex encoding is one of `0-9a-f`. -/
theorem Encode_mem (l : List Byte) : ∀ c ∈ Encode l, c ∈ hextable := by
  induction l with
  | nil => intro c h; simp [Encode] at h
  | cons v rest ih =>
    intro c h
    have hv := v.isLt
    have hand : v.val &&& 0x0f = v.val % 16 := Nat.and_pow_two_sub_one_eq_mod v.val 4
    simp only [Encode, List.mem_cons] at h
    rcases h with rfl | rfl | h
    · exact hexdigit_mem _ (by rw [Nat.shiftRight_eq_div_pow]; omega)
    · exact hexdigit_mem _ (by rw [hand]; omega)
    · exact ih c h

/-- The decimal rendering denotes the number rendered. -/
theorem decimalValue_FormatUint (n : Nat) : decimalValue (FormatUint n 10).data = n :=
  decimalValue_toDigitsCore (n + 1) n (Nat.lt_succ_self n)

theorem FormatUint_injective {a b : Nat} (h : FormatUint a 10 = FormatUint b 10) : a = b := by
  have h2 := congrArg (fun s : String => decimalValue s.data) h
  simpa [decimalValue_FormatUint] using h2

theorem String.append_left_cancel {s a b : String} (h : s ++ a = s ++ b) : a = b := by
  have h2 := congrArg String.data h
  rw [String.data_append, String.data_append] at h2
  exact String.ext (List.append_cancel_left h2)

theorem attributeKey_injective (request : IOAMTrace) {i j : Nat}
    (h : attributeKey request i = attributeKey request j) : i = j := by
  unfold attributeKey Itoa at h
  exact FormatUint_injective (String.append_left_cancel h)

theorem nodeLoop_eq_map (request : IOAMTrace) : ∀ (nodes : List (Option IOAMNode)) (i : Nat),
    nodeLoop request nodes i = (nodes.enumFrom i).map (fun p =>
      Event.SetAttributes (attributeKey request p.1) (ParseNode p.2 request.BitField)) := by
  intro nodes
  induction nodes with
  | nil => intro i; rfl
  | cons node rest ih => intro i; simp [nodeLoop, List.enumFrom, ih (i + 1)]

theorem nodeLoop_length (request : IOAMTrace) (nodes : List (Option IOAMNode)) (i : Nat) :
    (nodeLoop request nodes i).length = nodes.length := by
  simp [nodeLoop_eq_map]

theorem nodeLoop_getElem? (request : IOAMTrace) (nodes : List (Option IOAMNode)) (i j : Nat) :
    (nodeLoop request nodes i)[j]? = nodes[j]?.map (fun node =>
      Event.SetAttributes (attributeKey request (i + j)) (ParseNode node request.BitField)) := by
  rw [nodeLoop_eq_map, List.getElem?_map, List.getElem?_enumFrom]
  cases nodes[j]? <;> simp

/-! ## Lemmas on identifiers -/

theorem Encode_byte (x : Nat) (bs : List Byte) :
    Encode (byte x :: bs) = hexdigit (x / 16 % 16) :: hexdigit (x % 16) :: Encode bs := by
  have hand : ∀ y : Nat, y &&& 15 = y % 16 := fun y => Nat.and_pow_two_sub_one_eq_mod y 4
  have h1 : x % 256 / 2 ^ 4 = x / 16 % 16 := by omega
  have h2 : x % 256 % 16 = x % 16 := by omega
  simp only [Encode, byte, Nat.shiftRight_eq_div_pow, hand, h1, h2]

theorem Encode_append (a b : List Byte) : Encode (a ++ b) = Encode a ++ Encode b := by
  induction a with
  | nil => rfl
  | cons x rest ih => simp [Encode, ih]

theorem Encode_PutUint64 (v : Nat) : Encode (PutUint64 v) = hexPadded 16 v := by
  have hnil : Encode [] = [] := rfl
  simp only [PutUint64, Encode_byte, hexPadded, hnil, Nat.shiftRight_eq_div_pow]
  norm_num
  refine ⟨?_, ?_, ?_, ?_, ?_, ?_, ?_⟩ <;> congr 1 <;> omega

theorem bigEndianValue_PutUint64 (v : Nat) (h : v < 2 ^ 64) :
    bigEndianValue (PutUint64 v) = v := by
  simp only [PutUint64, bigEndianValue, byte, List.foldl, Nat.shiftRight_eq_div_pow]
  omega

theorem bigEndianValue_append (a b : List Byte) :
    bigEndianValue (a ++ b) = bigEndianValue a * 256 ^ b.length + bigEndianValue b := by
  have key : ∀ (l : List Byte) (acc : Nat),
      l.foldl (fun acc b => acc * 256 + b.val) acc
        = acc * 256 ^ l.length + l.foldl (fun acc b => acc * 256 + b.val) 0 := by
    intro l
    induction l with
    | nil => intro acc; simp
    | cons x rest ih =>
      intro acc
      simp only [List.foldl, List.length_cons]
      rw [ih (acc * 256 + x.val), ih (0 * 256 + x.val)]
      ring
  unfold bigEndianValue
  rw [List.foldl_append, key b]

/-! ## Lemmas on the report loop -/

theorem nodeLoop_keys (request : IOAMTrace) : ∀ (nodes : List (Option IOAMNode)) (i : Nat),
    (nodeLoop request nodes i).filterMap Event.key?
      = (List.range' i nodes.length).map (attributeKey request) := by
  intro nodes
  induction nodes with
  | nil => intro i; rfl
  | cons node rest ih =>
    intro i
    simp [nodeLoop, Event.key?, List.range', ih (i + 1)]

theorem nodeLoop_isSetAttributes (request : IOAMTrace) :
    ∀ (nodes : List (Option IOAMNode)) (i : Nat),
      ∀ ev ∈ nodeLoop request nodes i, ev.isSetAttributes = true := by
  intro nodes
  induction nodes with
  | nil => intro i ev h; simp [nodeLoop] at h
  | cons node rest ih =>
    intro i ev h
    simp only [nodeLoop, List.mem_cons] at h
    rcases h with h | h
    · subst h; rfl
    · exact ih (i + 1) ev h

/-- The loop over the nodes fills the store with the attributes of the hops, in
order, until the store is full; the attributes of later hops are dropped. -/
theorem foldl_applyEvent_nodeLoop (request : IOAMTrace) :
    ∀ (nodes : List (Option IOAMNode)) (i : Nat) (attrs : List (String × String)),
      (∀ p ∈ attrs, ∃ j, j < i ∧ p.1 = attributeKey request j) →
      (nodeLoop request nodes i).foldl applyEvent attrs
        = attrs ++ ((nodes.enumFrom i).map (fun p =>
            (attributeKey request p.1, ParseNode p.2 request.BitField))).take
              (AttributeCountLimit - attrs.length) := by
  intro nodes
  induction nodes with
  | nil => intro i attrs _; simp [nodeLoop]
  | cons node rest ih =>
    intro i attrs hattrs
    have hfresh : attrs.any (fun p => p.1 == attributeKey request i) = false := by
      rw [List.any_eq_false]
      intro p hp hkey
      obtain ⟨j, hj, hpj⟩ := hattrs p hp
      have heq : attributeKey request j = attributeKey request i := by
        rw [← hpj]; simpa using hkey
      have := attributeKey_injective request heq
      omega
    by_cases hfull : AttributeCountLimit ≤ attrs.length
    · simp only [nodeLoop, List.foldl, applyEvent, setAttribute, hfresh, Bool.false_eq_true,
        if_false, hfull, if_true]
      rw [ih (i + 1) attrs (fun p hp => by
        obtain ⟨j, hj, hpj⟩ := hattrs p hp
        exact ⟨j, by omega, hpj⟩)]
      have hzero : AttributeCountLimit - attrs.length = 0 := by omega
      simp [hzero]
    · simp only [nodeLoop, List.foldl, applyEvent, setAttribute, hfresh, Bool.false_eq_true,
        if_false, hfull]
      rw [ih (i + 1)]
      · obtain ⟨k, hk⟩ : ∃ k, AttributeCountLimit - attrs.length = k + 1 :=
          ⟨AttributeCountLimit - attrs.length - 1, by omega⟩
        have hk' : AttributeCountLimit - (attrs ++ [(attributeKey request i,
            ParseNode node request.BitField)]).length = k := by
          simp only [List.length_append, List.length_singleton]
          omega
        rw [hk', hk]
        simp [List.enumFrom]
      · intro p hp
        rcases List.mem_append.1 hp with h | h
        · obtain ⟨j, hj, hpj⟩ := hattrs p h
          exact ⟨j, by omega, hpj⟩
        · simp only [List.mem_singleton] at h
          exact ⟨i, by omega, by rw [h]⟩

/-- The span of a report holds the attributes of its first `AttributeCountLimit`
hops. -/
theorem spanAttributes_handleRequest (request : IOAMTrace) :
    spanAttributes (handleRequest request)
      = ((request.Nodes.enumFrom 1).map (fun p =>
          (attributeKey request p.1, ParseNode p.2 request.BitField))).take
            AttributeCountLimit := by
  simp only [spanAttributes, handleRequest, List.foldl, applyEvent, List.foldl_append]
  rw [foldl_applyEvent_nodeLoop request request.Nodes 1 [] (by simp)]
  simp

theorem spanAttributes_length (request : IOAMTrace) :
    (spanAttributes (handleRequest request)).length
      = min request.Nodes.length AttributeCountLimit := by
  rw [spanAttributes_handleRequest]
  simp [Nat.min_comm]

theorem countP_isSetAttributes_handleRequest (request : IOAMTrace) :
    (handleRequest request).countP Event.isSetAttributes = request.Nodes.length := by
  have hset : (nodeLoop request request.Nodes 1).countP Event.isSetAttributes
      = request.Nodes.length := by
    rw [List.countP_eq_length.2 (nodeLoop_isSetAttributes request request.Nodes 1),
      nodeLoop_length]
  simp [handleRequest, List.countP_cons, List.countP_append, hset, Event.isSetAttributes]

theorem Report_ok_then (sendResult : Option GoError) (rest : List (Except GoError IOAMTrace)) :
    ∀ rs : List IOAMTrace,
      Report sendResult (rs.map Except.ok ++ rest)
        = (Report sendResult rest).map (fun r => (rs.flatMap block ++ r.1, r.2)) := by
  intro rs
  induction rs with
  | nil => cases h : Report sendResult rest <;> simp [h]
  | cons r rs ih =>
    have hstep : Report sendResult (Except.ok r :: (rs.map Except.ok ++ rest))
        = (Report sendResult (rs.map Except.ok ++ rest)).map
            (fun x => (Event.Recv :: (handleRequest r ++ x.1), x.2)) := by
      rw [Report]
      cases Report sendResult (rs.map Except.ok ++ rest) <;> rfl
    rw [List.map_cons, List.cons_append, hstep, ih]
    cases h : Report sendResult rest <;> simp [block, handleRequest]

theorem Report_error (sendResult : Option GoError) (e : GoError)
    (later : List (Except GoError IOAMTrace)) :
    Report sendResult (Except.error e :: later)
      = some (Event.Recv :: (if e = GoError.EOF then [Event.SendAndClose] else []),
          if e = GoError.EOF then sendResult else some e) := by
  cases e <;> simp [Report]

theorem count_SendAndClose_blocks (rs : List IOAMTrace) :
    (rs.flatMap block).count Event.SendAndClose = 0 := by
  rw [List.count_eq_zero]
  intro h
  rcases List.mem_flatMap.1 h with ⟨r, _, hr⟩
  simp only [block, List.mem_cons, List.mem_append, List.mem_singleton, List.not_mem_nil,
    or_false] at hr
  rcases hr with hr | hr | hr | hr
  · cases hr
  · cases hr
  · have := nodeLoop_isSetAttributes r r.Nodes 1 _ hr
    simp [Event.isSetAttributes] at this
  · cases hr

theorem openSpans_cons (e : Event) (es : List Event) :
    openSpans (e :: es) = e.delta + openSpans es := by
  cases e <;> simp [openSpans, List.countP_cons, Event.isStart, Event.isEnd, Event.delta] <;>
    omega

/-- Soundness of the protocol check: along a checked sequence the number of
open spans is 0 or 1 after every prefix, 0 before every receive and 0 at the
end. -/
theorem spanProtocol_sound : ∀ (es : List Event) (isOpen : Bool),
    spanProtocol isOpen es = true →
      (∀ p, p <+: es → (isOpen.toNat : Int) + openSpans p = 0
          ∨ (isOpen.toNat : Int) + openSpans p = 1) ∧
      (∀ p, p ++ [Event.Recv] <+: es → (isOpen.toNat : Int) + openSpans p = 0) ∧
      (isOpen.toNat : Int) + openSpans es = 0 := by
  intro es
  induction es with
  | nil =>
    intro isOpen h
    cases isOpen <;> simp_all [spanProtocol, openSpans]
  | cons e es ih =>
    intro isOpen h
    have hstep : ∃ next : Bool, spanProtocol next es = true ∧
        (isOpen.toNat : Int) + e.delta = (next.toNat : Int) ∧
        (e = Event.Recv → isOpen = false) := by
      cases e <;> cases isOpen <;> simp_all [spanProtocol, Event.delta]
    obtain ⟨next, hnext, hdelta, hrecv⟩ := hstep
    obtain ⟨ih1, ih2, ih3⟩ := ih next hnext
    have hopen : (isOpen.toNat : Int) = 0 ∨ (isOpen.toNat : Int) = 1 := by
      cases isOpen <;> simp
    refine ⟨?_, ?_, ?_⟩
    · intro p hp
      rcases List.prefix_cons_iff.1 hp with rfl | ⟨t, rfl, ht⟩
      · simp only [openSpans, List.countP_nil, Nat.cast_zero, sub_zero, add_zero]
        exact hopen
      · rw [openSpans_cons, ← add_assoc, hdelta]
        exact ih1 t ht
    · intro p hp
      cases p with
      | nil =>
        have he : e = Event.Recv := by
          simp only [List.nil_append, List.cons_prefix_cons] at hp
          exact hp.1.symm
        simp [openSpans, hrecv he]
      | cons a t =>
        simp only [List.cons_append, List.cons_prefix_cons] at hp
        obtain ⟨rfl, ht⟩ := hp
        rw [openSpans_cons, ← add_assoc, hdelta]
        exact ih2 t ht
    · rw [openSpans_cons, ← add_assoc, hdelta]
      exact ih3

theorem spanProtocol_nodeLoop (request : IOAMTrace) (rest : List Event) :
    ∀ (nodes : List (Option IOAMNode)) (i : Nat),
      spanProtocol true (nodeLoop request nodes i ++ Event.End :: rest)
        = spanProtocol false rest := by
  intro nodes
  induction nodes with
  | nil => intro i; simp [nodeLoop, spanProtocol]
  | cons node tail ih => intro i; simp [nodeLoop, spanProtocol, ih (i + 1)]

theorem spanProtocol_blocks (final : List Event) : ∀ rs : List IOAMTrace,
    spanProtocol false (rs.flatMap block ++ final) = spanProtocol false final := by
  intro rs
  induction rs with
  | nil => simp
  | cons r rs ih =>
    have hshape : (r :: rs).flatMap block ++ final
        = Event.Recv :: Event.Start (spanContext r) "ioam-span"
          :: (nodeLoop r r.Nodes 1 ++ Event.End :: (rs.flatMap block ++ final)) := by
      simp [block, List.flatMap_cons]
    rw [hshape]
    simp [spanProtocol, spanProtocol_nodeLoop, ih]

/-! ## Theorems on the field decoder -/

/-- C1: for every hop record and every mask, `ParseNode` equals the reference
table-driven decoder: the concatenation over the thirteen rows, in canonical
order, of the `Name=Value; ` segments of the rows whose bit (tested with
`2^(31-k)` for row `k`) is set; a numeric value is rendered as the decimal
digits denoting it, without leading zero, and a byte string as `0x` followed
by two lowercase hex digits per byte. -/
theorem ParseNode_refines_table (node : Option IOAMNode) (fields : Nat) (n : Nat)
    (b : Bytes) :
    ParseNode node fields = tableDecode node fields ∧
    decimalValue (decimal n).data = n ∧
    (∀ c ∈ (decimal n).data, c ∈ decimalDigits) ∧
    decimal 0 = "0" ∧
    (n = 0 ∨ (decimal n).data.head? ≠ some '0') ∧
    (hex0x b).data = '0' :: 'x' :: Encode b.elems ∧
    (Encode b.elems).length = 2 * b.elems.length ∧
    (∀ c ∈ Encode b.elems, c ∈ "0123456789abcdef".data) :=
  ⟨ParseNode_eq_tableDecode node fields, decimalValue_FormatUint n, FormatUint_digits n, rfl,
    FormatUint_head n, rfl, Encode_length _, Encode_mem _⟩

/-- C2: undefined bits are ignored: the output for a mask equals the output
for the mask restricted to the defined bits, and setting a bit that is not a
defined mask constant gives the same output as clearing it. -/
theorem ParseNode_ignores_undefined_bits (node : Option IOAMNode) (m b : Nat)
    (hb : 2 ^ b ∉ definedMasks) :
    ParseNode node m = ParseNode node (m &&& definedMask) ∧
    ParseNode node (setBit m b) = ParseNode node (clearBit m b) := by
  have hne : ∀ k ∈ definedPositions, b ≠ k := by
    intro k hk hbk
    exact hb (hbk ▸ two_pow_mem_definedMasks k hk)
  constructor
  · apply ParseNode_congr
    intro k hk
    simp [definedMask_testBit k hk]
  · apply ParseNode_congr
    intro k hk
    have h1 := allOnes_testBit k hk
    simp only [setBit, clearBit, Nat.testBit_or, Nat.testBit_and, Nat.testBit_xor,
      Nat.testBit_two_pow, h1, hne k hk, decide_False, Bool.or_false]
    simp

/-- Witness for C2: bit 0 (numeric value 1) is not a defined mask constant. -/
theorem ParseNode_ignores_undefined_bits_witness :
    2 ^ 0 ∉ definedMasks ∧
    ParseNode (some exampleHop) (MASK_BIT0 ||| MASK_BIT5)
      = ParseNode (some exampleHop) ((MASK_BIT0 ||| MASK_BIT5) &&& definedMask) ∧
    ParseNode (some exampleHop) (setBit (MASK_BIT0 ||| MASK_BIT5) 0)
      = ParseNode (some exampleHop) (clearBit (MASK_BIT0 ||| MASK_BIT5) 0) :=
  ⟨by decide, ParseNode_ignores_undefined_bits (some exampleHop) (MASK_BIT0 ||| MASK_BIT5) 0
    (by decide)⟩

/-- C8 (as stated, refuted): with the numeric value `2^0 = 1` as mask the
decoder emits nothing, although row 0 of the table renders `HopLimit` and
`Id`; the value `2^22` selects the wide ingress/egress group, not the opaque
state snapshot. -/
theorem numeric_bit_k_counterexample :
    fieldTable.head?.map (fun row => (row.bit, rowSegments row (some exampleHop)))
      = some (0, "HopLimit=64; Id=7; ") ∧
    ParseNode (some exampleHop) (2 ^ 0) = "" ∧
    ParseNode (some exampleHop) (2 ^ 5) = "" ∧
    ParseNode (some exampleHop) (2 ^ 22) = "IngressIdWide=0; EgressIdWide=0; " := by
  decide

/-- C8 (amended): field group `k` of the table is enabled by the mask of
numeric value `2^(31-k)` (the constant `MASK_BITk`): for every table row `k`
and every hop, `ParseNode(hop, 2^(31-k))` is exactly that row's segments. -/
theorem ParseNode_single_group (row : FieldGroup) (hrow : row ∈ fieldTable)
    (node : Option IOAMNode) :
    ParseNode node (2 ^ (31 - row.bit)) = rowSegments row node := by
  rw [ParseNode_eq_tableDecode]
  simp only [fieldTable, List.mem_cons, List.mem_singleton, List.not_mem_nil, or_false] at hrow
  rcases hrow with h | h | h | h | h | h | h | h | h | h | h | h | h <;> subst h <;>
    simp only [tableDecode, fieldTable, List.map, land_two_pow_ne_zero, Nat.testBit_two_pow] <;>
    simp [String.join]

/-- Witness for C8 (amended): row 0 with the mask `2^31`. -/
theorem ParseNode_single_group_witness :
    fieldTable.head? = some (fieldTable.headD ⟨0, fun _ => []⟩) ∧
    ParseNode (some exampleHop) (2 ^ (31 - (fieldTable.headD ⟨0, fun _ => []⟩).bit))
      = rowSegments (fieldTable.headD ⟨0, fun _ => []⟩) (some exampleHop) :=
  ⟨rfl, ParseNode_single_group (fieldTable.headD ⟨0, fun _ => []⟩)
    (by simp [fieldTable]) (some exampleHop)⟩

/-- C9: the decoder is a total function of the hop and the mask, and an
absent part is decoded as the zero value: a `nil` hop as the all-zero hop, an
absent opaque-state sub-record as the sub-record with schema id 0 and empty
data, a `nil` byte string as the empty byte string; with only `MASK_BIT22` set
and no sub-record the output is `OpaqueStateSchemaId=0; OpaqueStateData=0x; `. -/
theorem ParseNode_absent_as_zero (node : Option IOAMNode) (h : IOAMNode) (o : Opaque)
    (m : Nat) :
    (∃ s : String, ParseNode node m = s) ∧
    ParseNode node m = ParseNode (some (present node)) m ∧
    ParseNode none m = ParseNode (some zeroHop) m ∧
    ParseNode (some { h with OSS := none }) m
      = ParseNode (some { h with OSS := some { SchemaId := 0, Data := some [] } }) m ∧
    ParseNode (some { h with OSS := some { o with Data := none } }) m
      = ParseNode (some { h with OSS := some { o with Data := some [] } }) m ∧
    ParseNode (some { h with NamespaceData := none }) m
      = ParseNode (some { h with NamespaceData := some [] }) m ∧
    ParseNode (some { h with NamespaceDataWide := none }) m
      = ParseNode (some { h with NamespaceDataWide := some [] }) m ∧
    ParseNode (some { h with OSS := none }) MASK_BIT22
      = "OpaqueStateSchemaId=0; OpaqueStateData=0x; " := by
  refine ⟨⟨_, rfl⟩, ?_, rfl, rfl, rfl, rfl, rfl, ?_⟩
  · cases node with
    | none => rfl
    | some x =>
      cases hx : x.OSS <;>
        simp [ParseNode, present, presentOSS, presentBytes, GetHopLimit, GetId, GetIdWide,
          GetIngressId, GetIngressIdWide, GetEgressId, GetEgressIdWide, GetTimestampSecs,
          GetTimestampFrac, GetTransitDelay, GetNamespaceData, GetNamespaceDataWide,
          GetQueueDepth, GetCsumComp, GetBufferOccupancy, GetOSS, Opaque.GetSchemaId,
          Opaque.GetData, EncodeToString, Bytes.elems, hx]
  · have h22 : MASK_BIT22 = 2 ^ 9 := by decide
    rw [ParseNode_eq_tableDecode, h22]
    simp only [tableDecode, fieldTable, List.map, land_two_pow_ne_zero, Nat.testBit_two_pow]
    simp only [Nat.reduceSub, Nat.reduceEqDiff, decide_False, decide_True, Bool.false_eq_true,
      if_false, if_true, String.join, List.foldl, rowSegments, List.map, segment, decimal, hex0x,
      GetOSS, Opaque.GetSchemaId, Opaque.GetData]
    decide

/-! ## Theorems on the report correlator -/

/-- C3 (as stated, refuted): for the worked example (namespace 123, mask bits
0 and 5, one hop) the attribute attached for hop 1 has the key
`ioam_namespace123_node1`, which is not `telemetry_namespace123_node1`. -/
theorem telemetry_key_counterexample :
    (handleRequest exampleReport)[1]?
      = some (Event.SetAttributes "ioam_namespace123_node1"
          "HopLimit=64; Id=7; NamespaceData=0xabcd; ") ∧
    "ioam_namespace123_node1"
      ≠ "telemetry_namespace" ++ decimal exampleReport.NamespaceId ++ "_node" ++ decimal 1 := by
  decide

/-- C3 (amended): for every report and every hop at 1-based position `k` of
its node list, the `k`-th attribute attached to the span has the key
`"ioam_namespace" ++ decimal(namespaceId) ++ "_node" ++ decimal(k)` and the
value `ParseNode(hop, bitField)`; the worked example yields the single
attribute `ioam_namespace123_node1` with value
`HopLimit=64; Id=7; NamespaceData=0xabcd; `. -/
theorem attribute_key_of_hop (request : IOAMTrace) (k : Nat) (node : Option IOAMNode)
    (hk : 1 ≤ k) (hnode : request.Nodes[k - 1]? = some node) :
    (handleRequest request)[k]?
      = some (Event.SetAttributes
          ("ioam_namespace" ++ decimal request.NamespaceId ++ "_node" ++ decimal k)
          (ParseNode node request.BitField)) ∧
    handleRequest exampleReport
      = [Event.Start (spanContext exampleReport) "ioam-span",
         Event.SetAttributes "ioam_namespace123_node1" "HopLimit=64; Id=7; NamespaceData=0xabcd; ",
         Event.End] := by
  refine ⟨?_, by decide⟩
  obtain ⟨j, rfl⟩ : ∃ j, k = j + 1 := ⟨k - 1, by omega⟩
  have hlt : j < request.Nodes.length := by
    rcases List.getElem?_eq_some_iff.1 hnode with ⟨h, _⟩
    simpa using h
  simp only [Nat.add_sub_cancel] at hnode
  simp only [handleRequest, List.getElem?_cons_succ]
  rw [List.getElem?_append_left (by rw [nodeLoop_length]; exact hlt), nodeLoop_getElem?, hnode]
  simp [attributeKey, Itoa, decimal, Nat.add_comm]

/-- Witness for C3 (amended): hop 1 of the worked example. -/
theorem attribute_key_of_hop_witness :
    (handleRequest exampleReport)[1]?
      = some (Event.SetAttributes
          ("ioam_namespace" ++ decimal exampleReport.NamespaceId ++ "_node" ++ decimal 1)
          (ParseNode (some exampleHop) exampleReport.BitField)) :=
  (attribute_key_of_hop exampleReport 1 (some exampleHop) (by decide) (by decide)).1

/-- C4: path order is preserved and the mask is shared: the attributes
attached for a report are, in this order for `k = 1..m`, the key
`... ++ "_node" ++ decimal(k)` with the value `ParseNode(n_k, bitField)`; two
reports with the same namespace and mask that agree on the hop at a position
attach the same attribute at that position, whatever their other hops. -/
theorem Report_preserves_path_order (request other : IOAMTrace) (j : Nat)
    (hns : other.NamespaceId = request.NamespaceId)
    (hmask : other.BitField = request.BitField)
    (hhop : other.Nodes[j]? = request.Nodes[j]?) :
    handleRequest request
      = Event.Start (spanContext request) "ioam-span"
        :: ((request.Nodes.enumFrom 1).map (fun p =>
              Event.SetAttributes
                ("ioam_namespace" ++ decimal request.NamespaceId ++ "_node" ++ decimal p.1)
                (ParseNode p.2 request.BitField))
            ++ [Event.End]) ∧
    (nodeLoop other other.Nodes 1)[j]? = (nodeLoop request request.Nodes 1)[j]? := by
  constructor
  · simp only [handleRequest, nodeLoop_eq_map]
    rfl
  · rw [nodeLoop_getElem?, nodeLoop_getElem?, hhop]
    simp [attributeKey, hns, hmask]

/-- Witness for C4: two two-hop reports that differ in their first hop attach
the same attribute for their second hop. -/
theorem Report_preserves_path_order_witness :
    (nodeLoop (twoHopReport (some exampleHop)) (twoHopReport (some exampleHop)).Nodes 1)[1]?
      = (nodeLoop (twoHopReport none) (twoHopReport none).Nodes 1)[1]? :=
  (Report_preserves_path_order (twoHopReport none) (twoHopReport (some exampleHop)) 1
    rfl rfl rfl).2

example : handleRequest (twoHopReport (some exampleHop))
    = [Event.Start (spanContext (twoHopReport none)) "ioam-span",
       Event.SetAttributes "ioam_namespace5_node1" "HopLimit=64; Id=7; IngressId=0; EgressId=0; ",
       Event.SetAttributes "ioam_namespace5_node2" "HopLimit=0; Id=0; IngressId=0; EgressId=0; ",
       Event.End] := by decide

/-- C5: for 64-bit `traceIdHigh`, `traceIdLow` and `spanId`, the span context
built by `Report` (and passed to the span it starts) has a 16-byte trace
identifier whose first eight bytes are the big-endian bytes of `traceIdHigh`
and whose last eight are those of `traceIdLow`, an 8-byte span identifier that
is the big-endian `spanId`, and the sampled flag; the hex rendering of the
trace identifier is the 16-digit zero-padded hex of `traceIdHigh` followed by
that of `traceIdLow`.  For the worked example the identifiers render as
`01020304050607081112131415161718` and `2122232425262728`. -/
theorem spanContext_big_endian (request : IOAMTrace)
    (hHigh : request.TraceId_High < 2 ^ 64) (hLow : request.TraceId_Low < 2 ^ 64)
    (hSpan : request.SpanId < 2 ^ 64) :
    (handleRequest request).head? = some (Event.Start (spanContext request) "ioam-span") ∧
    (spanContext request).TraceID.length = 16 ∧
    (spanContext request).SpanID.length = 8 ∧
    bigEndianValue ((spanContext request).TraceID.take 8) = request.TraceId_High ∧
    bigEndianValue ((spanContext request).TraceID.drop 8) = request.TraceId_Low ∧
    bigEndianValue (spanContext request).TraceID
      = request.TraceId_High * 2 ^ 64 + request.TraceId_Low ∧
    bigEndianValue (spanContext request).SpanID = request.SpanId ∧
    (spanContext request).TraceFlags = FlagsSampled ∧
    idString (spanContext request).TraceID
      = String.mk (hexPadded 16 request.TraceId_High ++ hexPadded 16 request.TraceId_Low) ∧
    idString (spanContext request).SpanID = String.mk (hexPadded 16 request.SpanId) ∧
    idString (spanContext exampleReport).TraceID = "01020304050607081112131415161718" ∧
    idString (spanContext exampleReport).SpanID = "2122232425262728" := by
  have hlen : ∀ v, (PutUint64 v).length = 8 := fun _ => rfl
  refine ⟨rfl, rfl, rfl, ?_, ?_, ?_, ?_, rfl, ?_, ?_, by decide, by decide⟩
  · simp only [spanContext]
    rw [List.take_left' (hlen _)]
    exact bigEndianValue_PutUint64 _ hHigh
  · simp only [spanContext]
    rw [List.drop_left' (hlen _)]
    exact bigEndianValue_PutUint64 _ hLow
  · simp only [spanContext]
    rw [bigEndianValue_append, bigEndianValue_PutUint64 _ hHigh,
      bigEndianValue_PutUint64 _ hLow, hlen]
    norm_num
  · exact bigEndianValue_PutUint64 _ hSpan
  · simp only [idString, EncodeToString, Bytes.elems, spanContext, Encode_append,
      Encode_PutUint64]
  · simp only [idString, EncodeToString, Bytes.elems, spanContext, Encode_PutUint64]

/-- Witness for C5: the identifiers of the worked example are 64-bit values. -/
theorem spanContext_big_endian_witness :
    bigEndianValue (spanContext exampleReport).TraceID
      = 0x0102030405060708 * 2 ^ 64 + 0x1112131415161718 ∧
    bigEndianValue (spanContext exampleReport).SpanID = 0x2122232425262728 :=
  have h := spanContext_big_endian exampleReport (by decide) (by decide) (by decide)
  ⟨h.2.2.2.2.2.1, h.2.2.2.2.2.2.1⟩

/-- C6 (as stated, refuted): for a report with 130 hops `Report` makes 130
`SetAttributes` calls with pairwise distinct keys, but the span ends up with
128 attributes, not `len(nodes) = 130`: the store of the span is full after
the first 128 hops. -/
theorem attribute_limit_counterexample :
    longReport.Nodes.length = 130 ∧
    (handleRequest longReport).countP Event.isSetAttributes = 130 ∧
    (spanAttributes (handleRequest longReport)).length = 128 ∧
    (spanAttributes (handleRequest longReport)).length ≠ longReport.Nodes.length := by
  have hlen : longReport.Nodes.length = 130 := by simp [longReport]
  have hattrs : (spanAttributes (handleRequest longReport)).length = 128 := by
    rw [spanAttributes_length, hlen]
    decide
  refine ⟨hlen, ?_, hattrs, ?_⟩
  · rw [countP_isSetAttributes_handleRequest, hlen]
  · rw [hattrs, hlen]
    decide

/-- C6 (amended): for every report, `Report` starts exactly one span and makes
one `SetAttributes` call per hop, with pairwise distinct keys, so no hop's
attribute overwrites another's; the span ends up with the attributes of the
first 128 hops, that is with `min(len(nodes), 128)` attributes, 128 being the
attribute limit of a span; a report with no nodes gives a span with no
attributes and `Report` returns no error. -/
theorem Report_one_span_per_report (sendResult : Option GoError) (request : IOAMTrace) :
    Report sendResult [Except.ok request, Except.error GoError.EOF]
      = some (Event.Recv :: (handleRequest request ++ [Event.Recv, Event.SendAndClose]),
          sendResult) ∧
    (handleRequest request).countP Event.isStart = 1 ∧
    (handleRequest request).countP Event.isEnd = 1 ∧
    (handleRequest request).countP Event.isSetAttributes = request.Nodes.length ∧
    ((handleRequest request).filterMap Event.key?).Nodup ∧
    spanAttributes (handleRequest request)
      = ((request.Nodes.enumFrom 1).map (fun p =>
          ("ioam_namespace" ++ decimal request.NamespaceId ++ "_node" ++ decimal p.1,
            ParseNode p.2 request.BitField))).take 128 ∧
    (spanAttributes (handleRequest request)).length = min request.Nodes.length 128 ∧
    spanAttributes (handleRequest { request with Nodes := [] }) = [] ∧
    Report none [Except.ok { request with Nodes := [] }, Except.error GoError.EOF]
      = some ([Event.Recv, Event.Start (spanContext request) "ioam-span", Event.End,
          Event.Recv, Event.SendAndClose], none) := by
  have hstart : (nodeLoop request request.Nodes 1).countP Event.isStart = 0 := by
    rw [List.countP_eq_zero]
    intro ev hev
    have := nodeLoop_isSetAttributes request request.Nodes 1 ev hev
    cases ev <;> simp_all [Event.isSetAttributes, Event.isStart]
  have hend : (nodeLoop request request.Nodes 1).countP Event.isEnd = 0 := by
    rw [List.countP_eq_zero]
    intro ev hev
    have := nodeLoop_isSetAttributes request request.Nodes 1 ev hev
    cases ev <;> simp_all [Event.isSetAttributes, Event.isEnd]
  refine ⟨rfl, ?_, ?_, countP_isSetAttributes_handleRequest request, ?_, ?_, ?_, rfl, rfl⟩
  · simp [handleRequest, List.countP_cons, List.countP_append, hstart, Event.isStart]
  · simp [handleRequest, List.countP_cons, List.countP_append, hend, Event.isEnd]
  · have hkeys : (handleRequest request).filterMap Event.key?
        = (List.range' 1 request.Nodes.length).map (attributeKey request) := by
      simp [handleRequest, List.filterMap_cons, List.filterMap_append, Event.key?,
        nodeLoop_keys]
    rw [hkeys]
    exact List.Nodup.map (fun _ _ h => attributeKey_injective request h)
      (List.nodup_range' 1 request.Nodes.length)
  · exact spanAttributes_handleRequest request
  · exact spanAttributes_length request

/-- C7: if the stream delivers `r_1..r_n` and then end-of-input, `Report`
processes exactly `r_1..r_n` in order, sends exactly one acknowledgment and
returns the result of sending it; if the stream delivers `r_1..r_n` and then a
receive error other than end-of-input, `Report` processes exactly `r_1..r_n`,
sends no acknowledgment and returns that error. -/
theorem Report_stream_termination (sendResult : Option GoError) (rs : List IOAMTrace)
    (e : GoError) (later : List (Except GoError IOAMTrace)) (he : e ≠ GoError.EOF) :
    Report sendResult (rs.map Except.ok ++ Except.error GoError.EOF :: later)
      = some (rs.flatMap (fun r => Event.Recv :: handleRequest r)
          ++ [Event.Recv, Event.SendAndClose], sendResult) ∧
    (rs.flatMap (fun r => Event.Recv :: handleRequest r)
      ++ [Event.Recv, Event.SendAndClose]).count Event.SendAndClose = 1 ∧
    Report sendResult (rs.map Except.ok ++ Except.error e :: later)
      = some (rs.flatMap (fun r => Event.Recv :: handleRequest r) ++ [Event.Recv], some e) ∧
    (rs.flatMap (fun r => Event.Recv :: handleRequest r)
      ++ [Event.Recv]).count Event.SendAndClose = 0 := by
  have hblock : (fun r => Event.Recv :: handleRequest r) = block := rfl
  have hcount := count_SendAndClose_blocks rs
  rw [hblock]
  refine ⟨?_, ?_, ?_, ?_⟩
  · rw [Report_ok_then, Report_error]
    simp
  · rw [List.count_append, hcount]
    decide
  · rw [Report_ok_then, Report_error]
    simp [he]
  · rw [List.count_append, hcount]
    decide

/-- Witness for C7: one report followed by a transport error. -/
theorem Report_stream_termination_witness :
    Report none ([exampleReport].map Except.ok ++ [Except.error (GoError.other "reset")])
      = some ([exampleReport].flatMap (fun r => Event.Recv :: handleRequest r) ++ [Event.Recv],
          some (GoError.other "reset")) :=
  (Report_stream_termination none [exampleReport] (GoError.other "reset") []
    (by decide)).2.2.1

/-- C10: over any finite stream of reports ended by end-of-input or by a
receive error, `Report` returns, and its calls form one block per processed
report, `Recv, Start, SetAttributes x len(nodes), End`, followed by the last
`Recv` (and the acknowledgment on end-of-input); after every prefix of the
calls zero or one span is open, no span is open at any `Recv`, and none is
open when `Report` returns. -/
theorem Report_span_discipline (sendResult : Option GoError) (rs : List IOAMTrace)
    (e : GoError) (later : List (Except GoError IOAMTrace)) :
    ∃ events ret,
      Report sendResult (rs.map Except.ok ++ Except.error e :: later) = some (events, ret) ∧
      events = rs.flatMap (fun r =>
          Event.Recv :: Event.Start (spanContext r) "ioam-span"
            :: (nodeLoop r r.Nodes 1 ++ [Event.End]))
        ++ Event.Recv :: (if e = GoError.EOF then [Event.SendAndClose] else []) ∧
      (∀ r : IOAMTrace, (nodeLoop r r.Nodes 1).length = r.Nodes.length ∧
        ∀ ev ∈ nodeLoop r r.Nodes 1, ev.isSetAttributes = true) ∧
      (∀ p, p <+: events → openSpans p = 0 ∨ openSpans p = 1) ∧
      (∀ p, p ++ [Event.Recv] <+: events → openSpans p = 0) ∧
      openSpans events = 0 := by
  have hblock : (fun r : IOAMTrace =>
      Event.Recv :: Event.Start (spanContext r) "ioam-span"
        :: (nodeLoop r r.Nodes 1 ++ [Event.End])) = block := rfl
  have hproto : spanProtocol false
      (rs.flatMap block
        ++ Event.Recv :: (if e = GoError.EOF then [Event.SendAndClose] else [])) = true := by
    rw [spanProtocol_blocks]
    split <;> rfl
  obtain ⟨h1, h2, h3⟩ := spanProtocol_sound _ false hproto
  refine ⟨rs.flatMap block
      ++ Event.Recv :: (if e = GoError.EOF then [Event.SendAndClose] else []),
    if e = GoError.EOF then sendResult else some e, ?_, ?_, ?_, ?_, ?_, ?_⟩
  · rw [Report_ok_then, Report_error]
    rfl
  · rw [hblock]
  · exact fun r => ⟨nodeLoop_length r r.Nodes 1, nodeLoop_isSetAttributes r r.Nodes 1⟩
  · intro p hp
    simpa using h1 p hp
  · intro p hp
    simpa using h2 p hp
  · simpa using h3

example : Report none [Except.ok exampleReport, Except.error GoError.EOF]
    = some ([Event.Recv,
        Event.Start ⟨[1, 2, 3, 4, 5, 6, 7, 8, 0x11, 0x12, 0x13, 0x14, 0x15, 0x16, 0x17, 0x18],
          [0x21, 0x22, 0x23, 0x24, 0x25, 0x26, 0x27, 0x28], 1⟩ "ioam-span",
        Event.SetAttributes "ioam_namespace123_node1" "HopLimit=64; Id=7; NamespaceData=0xabcd; ",
        Event.End, Event.Recv, Event.SendAndClose], none) := by decide
example : idString (spanContext exampleReport).TraceID = "01020304050607081112131415161718" := by
  decide
example : ParseNode none 0 = "" := by decide
example : ParseNode (some exampleHop) (MASK_BIT0 ||| MASK_BIT5)
    = "HopLimit=64; Id=7; NamespaceData=0xabcd; " := by decide
example : tableDecode none (MASK_BIT0 ||| MASK_BIT5) = "HopLimit=0; Id=0; NamespaceData=0x; " := by
  decide
example : definedMask = 0xFFF00200 := by decide

/-! ## Lemmas on the decoded attributes -/

theorem segment_data (a : String × String) : (segment a).data = segmentChars a := by
  simp [segment, segmentChars, String.data_append]

theorem attrsOf_append (l₁ l₂ : List FieldGroup) (node : Option IOAMNode) (mask : Nat) :
    attrsOf (l₁ ++ l₂) node mask = attrsOf l₁ node mask ++ attrsOf l₂ node mask := by
  simp [attrsOf, List.flatMap_append]

theorem attrsOf_cons (row : FieldGroup) (rows : List FieldGroup) (node : Option IOAMNode)
    (mask : Nat) :
    attrsOf (row :: rows) node mask
      = (if rowSet mask row then row.attrs node else []) ++ attrsOf rows node mask := by
  simp [attrsOf, List.flatMap_cons]

/-- The characters of the output are the segments of the decoded attributes. -/
theorem ParseNode_data (node : Option IOAMNode) (mask : Nat) :
    (ParseNode node mask).data = (attrsOf fieldTable node mask).flatMap segmentChars := by
  rw [ParseNode_eq_tableDecode]
  unfold tableDecode
  generalize fieldTable = rows
  induction rows with
  | nil => rfl
  | cons row rows ih =>
    rw [attrsOf_cons, List.flatMap_append, ← ih]
    simp only [String.data_join, List.map_cons, List.flatten_cons, List.map_map]
    congr 1
    by_cases h : rowSet mask row
    · have h' : mask &&& 2 ^ (31 - row.bit) ≠ 0 := h
      simp only [h, h', if_true, ne_eq, not_false_eq_true, rowSegments, String.data_join,
        List.map_map, List.flatMap]
      congr 1
      apply List.map_congr_left
      intro a _
      exact segment_data a
    · have h' : ¬ mask &&& 2 ^ (31 - row.bit) ≠ 0 := h
      simp [h, h']

/-! ## Lemmas on hex decoding -/

set_option maxRecDepth 100000 in
theorem Decode_pair : ∀ v : Byte,
    (match fromHexChar (hexdigit (v.val >>> 4)), fromHexChar (hexdigit (v.val &&& 0x0f)) with
      | some a, some b => some (byte ((a <<< 4) ||| b))
      | _, _ => none) = some v := by
  decide

/-- Hex decoding recovers the encoded bytes. -/
theorem Decode_Encode (l : List Byte) : Decode (Encode l) = some l := by
  induction l with
  | nil => rfl
  | cons v rest ih =>
    have hv := Decode_pair v
    simp only [Encode, Decode, ih]
    revert hv
    cases fromHexChar (hexdigit (v.val >>> 4)) <;>
      cases fromHexChar (hexdigit (v.val &&& 0x0f)) <;> simp

theorem Encode_injective {a b : List Byte} (h : Encode a = Encode b) : a = b := by
  have h2 := congrArg Decode h
  rw [Decode_Encode, Decode_Encode] at h2
  exact Option.some.inj h2

theorem attrsOf_congr (rows : List FieldGroup) (n₁ n₂ : Option IOAMNode) (mask : Nat)
    (h : ∀ row ∈ rows, row.attrs n₁ = row.attrs n₂) :
    attrsOf rows n₁ mask = attrsOf rows n₂ mask := by
  induction rows with
  | nil => rfl
  | cons row rows ih =>
    rw [attrsOf_cons, attrsOf_cons, h row (List.mem_cons_self _ _),
      ih (fun r hr => h r (List.mem_cons_of_mem _ hr))]

/-- Two hops that differ only in what one selected row renders have equal
outputs exactly when the segments of that row are equal. -/
theorem ParseNode_eq_iff_of_split (l₁ l₂ : List FieldGroup) (row : FieldGroup)
    (n₁ n₂ : Option IOAMNode) (mask : Nat) (hT : fieldTable = l₁ ++ row :: l₂)
    (h₁ : ∀ r ∈ l₁, r.attrs n₁ = r.attrs n₂) (h₂ : ∀ r ∈ l₂, r.attrs n₁ = r.attrs n₂)
    (hset : rowSet mask row) :
    ParseNode n₁ mask = ParseNode n₂ mask
      ↔ (row.attrs n₁).flatMap segmentChars = (row.attrs n₂).flatMap segmentChars := by
  rw [String.ext_iff, ParseNode_data, ParseNode_data, hT, attrsOf_append, attrsOf_append,
    attrsOf_cons, attrsOf_cons, attrsOf_congr l₁ n₁ n₂ mask h₁, attrsOf_congr l₂ n₁ n₂ mask h₂]
  simp only [hset, if_true, List.flatMap_append]
  rw [List.append_cancel_left_eq, List.append_cancel_right_eq]

theorem segmentChars_hex_eq_iff (name : String) (a b : Bytes) :
    segmentChars (name, hex0x a) = segmentChars (name, hex0x b) ↔ a.elems = b.elems := by
  have hdata : ∀ x : Bytes, (hex0x x).data = '0' :: 'x' :: Encode x.elems := fun _ => rfl
  simp only [segmentChars, hdata, List.append_cancel_left_eq, List.cons.injEq, true_and,
    List.cons_append, List.append_cancel_right_eq]
  exact ⟨Encode_injective, fun h => by rw [h]⟩

theorem mem_attrsOf {rows : List FieldGroup} {node : Option IOAMNode} {mask : Nat}
    {a : String × String} :
    a ∈ attrsOf rows node mask ↔ ∃ row ∈ rows, rowSet mask row ∧ a ∈ row.attrs node := by
  simp only [attrsOf, List.mem_flatMap]
  constructor
  · rintro ⟨row, hrow, ha⟩
    by_cases h : rowSet mask row
    · exact ⟨row, hrow, h, by simpa [h] using ha⟩
    · simp [h] at ha
  · rintro ⟨row, hrow, h, ha⟩
    exact ⟨row, hrow, by simpa [h] using ha⟩

/-! ## Further theorems on the field decoder -/

/-- C11: the hex rendering of the byte fields is lossless.  For a mask with
`MASK_BIT5` set and two hops that agree on all fields other than
`NamespaceData`, the outputs are equal if and only if the two byte strings have
the same bytes; the same holds for `NamespaceDataWide` with `MASK_BIT10` and
for the data of the opaque state snapshot with `MASK_BIT22`.  The emitted value
is `0x` followed by exactly two characters of `0-9a-f` per byte, and hex
decoding recovers the bytes. -/
theorem hex_rendering_lossless (h : IOAMNode) (o : Opaque) (a b : Bytes) (m5 m10 m22 : Nat)
    (h5 : m5 &&& MASK_BIT5 ≠ 0) (h10 : m10 &&& MASK_BIT10 ≠ 0)
    (h22 : m22 &&& MASK_BIT22 ≠ 0) :
    (ParseNode (some { h with NamespaceData := a }) m5
        = ParseNode (some { h with NamespaceData := b }) m5 ↔ a.elems = b.elems) ∧
    (ParseNode (some { h with NamespaceDataWide := a }) m10
        = ParseNode (some { h with NamespaceDataWide := b }) m10 ↔ a.elems = b.elems) ∧
    (ParseNode (some { h with OSS := some { o with Data := a } }) m22
        = ParseNode (some { h with OSS := some { o with Data := b } }) m22
      ↔ a.elems = b.elems) ∧
    ("NamespaceData", hex0x a) ∈ attrsOf fieldTable (some { h with NamespaceData := a }) m5 ∧
    ("NamespaceDataWide", hex0x a)
      ∈ attrsOf fieldTable (some { h with NamespaceDataWide := a }) m10 ∧
    ("OpaqueStateData", hex0x a)
      ∈ attrsOf fieldTable (some { h with OSS := some { o with Data := a } }) m22 ∧
    (hex0x a).data = '0' :: 'x' :: Encode a.elems ∧
    (Encode a.elems).length = 2 * a.elems.length ∧
    (∀ c ∈ Encode a.elems, c ∈ "0123456789abcdef".data) ∧
    Decode (Encode a.elems) = some a.elems := by
  have s5 : rowSet m5 (⟨5, fun n => [("NamespaceData", hex0x (GetNamespaceData n))]⟩ : FieldGroup) := h5
  have s10 : rowSet m10
      (⟨10, fun n => [("NamespaceDataWide", hex0x (GetNamespaceDataWide n))]⟩ : FieldGroup) := h10
  have s22 : rowSet m22 (⟨22, fun n => [("OpaqueStateSchemaId", decimal (Opaque.GetSchemaId (GetOSS n))),
      ("OpaqueStateData", hex0x (Opaque.GetData (GetOSS n)))]⟩ : FieldGroup) := h22
  refine ⟨?_, ?_, ?_, ?_, ?_, ?_, rfl, Encode_length _, Encode_mem _, Decode_Encode _⟩
  · rw [ParseNode_eq_iff_of_split (fieldTable.take 5) (fieldTable.drop 6)
      _ _ _ m5 rfl ?_ ?_ s5]
    · simpa [GetNamespaceData] using segmentChars_hex_eq_iff "NamespaceData" a b
    · intro r hr
      simp only [fieldTable, List.take, List.mem_cons, List.mem_singleton, List.not_mem_nil,
        or_false] at hr
      rcases hr with hr | hr | hr | hr | hr <;> subst hr <;> rfl
    · intro r hr
      simp only [fieldTable, List.drop, List.mem_cons, List.mem_singleton, List.not_mem_nil,
        or_false] at hr
      rcases hr with hr | hr | hr | hr | hr | hr | hr <;> subst hr <;> rfl
  · rw [ParseNode_eq_iff_of_split (fieldTable.take 10) (fieldTable.drop 11)
      _ _ _ m10 rfl ?_ ?_ s10]
    · simpa [GetNamespaceDataWide]
        using segmentChars_hex_eq_iff "NamespaceDataWide" a b
    · intro r hr
      simp only [fieldTable, List.take, List.mem_cons, List.mem_singleton, List.not_mem_nil,
        or_false] at hr
      rcases hr with hr | hr | hr | hr | hr | hr | hr | hr | hr | hr <;> subst hr <;> rfl
    · intro r hr
      simp only [fieldTable, List.drop, List.mem_cons, List.mem_singleton, List.not_mem_nil,
        or_false] at hr
      rcases hr with hr | hr <;> subst hr <;> rfl
  · rw [ParseNode_eq_iff_of_split (fieldTable.take 12) (fieldTable.drop 13)
      _ _ _ m22 rfl ?_ ?_ s22]
    · simpa [GetOSS, Opaque.GetData, Opaque.GetSchemaId]
        using segmentChars_hex_eq_iff "OpaqueStateData" a b
    · intro r hr
      simp only [fieldTable, List.take, List.mem_cons, List.mem_singleton, List.not_mem_nil,
        or_false] at hr
      rcases hr with hr | hr | hr | hr | hr | hr | hr | hr | hr | hr | hr | hr <;>
        subst hr <;> rfl
    · intro r hr
      simp [fieldTable] at hr
  · exact mem_attrsOf.2 ⟨_, by simp [fieldTable], s5, by simp [GetNamespaceData]⟩
  · exact mem_attrsOf.2 ⟨_, by simp [fieldTable], s10, by simp [GetNamespaceDataWide]⟩
  · exact mem_attrsOf.2 ⟨_, by simp [fieldTable], s22, by simp [GetOSS, Opaque.GetData]⟩

/-- Witness for C11: the worked example's hop with the masks `MASK_BIT5`,
`MASK_BIT10` and `MASK_BIT22`. -/
theorem hex_rendering_lossless_witness :
    (ParseNode (some { exampleHop with NamespaceData := some [0xAB] }) MASK_BIT5
        = ParseNode (some { exampleHop with NamespaceData := some [0xAC] }) MASK_BIT5
      ↔ Bytes.elems (some [0xAB]) = Bytes.elems (some [0xAC])) :=
  (hex_rendering_lossless exampleHop ⟨0, none⟩ (some [0xAB]) (some [0xAC])
    MASK_BIT5 MASK_BIT10 MASK_BIT22 (by decide) (by decide) (by decide)).1

/-! ## Lemmas on the defined positions -/

theorem sensitive_witness : ∀ b ∈ definedPositions,
    b < 32 ∧ ParseNode none (0 ^^^ 2 ^ b) ≠ ParseNode none 0 := by
  decide

/-- The positions that matter to the decoder are the defined positions. -/
theorem sensitive_iff (b : Nat) : Sensitive b ↔ b ∈ definedPositions := by
  constructor
  · rintro ⟨_, node, m, _, hne⟩
    by_contra hb
    apply hne
    apply ParseNode_congr
    intro k hk
    have hbk : b ≠ k := fun h => hb (h ▸ hk)
    simp [Nat.testBit_xor, Nat.testBit_two_pow, hbk]
  · intro hb
    obtain ⟨hlt, hne⟩ := sensitive_witness b hb
    exact ⟨hlt, none, 0, by decide, hne⟩

/-! ## Lemmas on the package-level variables -/

theorem ParseNodeSt_snd (node : Option IOAMNode) (fields : Nat) (g : Globals) :
    (ParseNodeSt node fields g).2 = g := rfl

theorem ParseNodeSt_init (node : Option IOAMNode) (fields : Nat) :
    (ParseNodeSt node fields Globals.init).1 = ParseNode node fields := rfl

theorem nodeLoopSt_snd (request : IOAMTrace) :
    ∀ (nodes : List (Option IOAMNode)) (i : Nat) (g : Globals),
      (nodeLoopSt request nodes i g).2 = g := by
  intro nodes
  induction nodes with
  | nil => intro i g; rfl
  | cons node rest ih => intro i g; simp only [nodeLoopSt, ih, ParseNodeSt_snd]

theorem nodeLoopSt_init (request : IOAMTrace) :
    ∀ (nodes : List (Option IOAMNode)) (i : Nat),
      (nodeLoopSt request nodes i Globals.init).1 = nodeLoop request nodes i := by
  intro nodes
  induction nodes with
  | nil => intro i; rfl
  | cons node rest ih =>
    intro i
    simp only [nodeLoopSt, nodeLoop, ParseNodeSt_snd, ParseNodeSt_init, ih]

/-- Running `Report` leaves the package-level variables as they were. -/
theorem ReportSt_preserves (sendResult : Option GoError) :
    ∀ (stream : List (Except GoError IOAMTrace)) (g g' : Globals)
      (res : List Event × Option GoError),
      ReportSt sendResult stream g = some (res, g') → g' = g := by
  intro stream
  induction stream with
  | nil => intro g g' res h; simp [ReportSt] at h
  | cons r rest ih =>
    intro g g' res h
    cases r with
    | error e =>
      cases e <;> simp only [ReportSt, Option.some.injEq, Prod.mk.injEq] at h <;> exact h.2.symm
    | ok request =>
      simp only [ReportSt, nodeLoopSt_snd] at h
      cases hrec : ReportSt sendResult rest g with
      | none => simp [hrec] at h
      | some v =>
        obtain ⟨⟨events, ret⟩, g2⟩ := v
        simp only [hrec, Option.some.injEq, Prod.mk.injEq] at h
        rw [← h.2]
        exact ih g g2 (events, ret) hrec

/-- From the declared values of the variables, `Report` over the state makes
the calls and returns the error of `Report`. -/
theorem ReportSt_init (sendResult : Option GoError) :
    ∀ stream : List (Except GoError IOAMTrace),
      ReportSt sendResult stream Globals.init
        = (Report sendResult stream).map (fun res => (res, Globals.init)) := by
  intro stream
  induction stream with
  | nil => rfl
  | cons r rest ih =>
    cases r with
    | error e => cases e <;> rfl
    | ok request =>
      simp only [ReportSt, Report, nodeLoopSt_snd, nodeLoopSt_init, ih]
      cases Report sendResult rest <;> simp [handleRequest]

/-- C12 (as stated, refuted): the bit positions of the mask at which toggling
can change the output of `ParseNode` are not fourteen, and the program defines
thirteen mask constants. -/
theorem fourteen_positions_counterexample :
    (¬ ∃ l : List Nat, l.Nodup ∧ l.length = 14 ∧ ∀ b, b ∈ l ↔ Sensitive b) ∧
    definedMasks.length = 13 := by
  refine ⟨?_, rfl⟩
  rintro ⟨l, hnd, hlen, hl⟩
  have hperm : l.Perm definedPositions :=
    (List.perm_ext_iff_of_nodup hnd (by decide)).2 (fun b => (hl b).trans (sensitive_iff b))
  have := hperm.length_eq
  rw [hlen] at this
  exact absurd this (by decide)

/-- C12 (amended): the mask has thirteen defined bit positions: toggling bit
`b` of a 32-bit mask changes the output of `ParseNode` for some hop and mask
exactly when `b` is one of the thirteen positions 31 down to 20 and 9, and
these are the positions of the thirteen mask constants of the program. -/
theorem thirteen_defined_positions (b : Nat) :
    (Sensitive b ↔ b ∈ definedPositions) ∧
    definedPositions.Nodup ∧
    definedPositions.length = 13 ∧
    definedMasks = definedPositions.map (fun k => 2 ^ k) ∧
    definedMasks.length = 13 :=
  ⟨sensitive_iff b, by decide, rfl, by decide, rfl⟩

/-- C13: decoding is deterministic and stateless.  `ParseNode` returns the
state of the package-level mask variables it was given, `Report` over any
stream returns with the variables at their declared values, and after any such
run `ParseNode` gives, on equal inputs, the output it gives at the start. -/
theorem ParseNode_stateless (sendResult : Option GoError)
    (stream : List (Except GoError IOAMTrace)) (res : List Event × Option GoError)
    (g' : Globals) (node : Option IOAMNode) (fields : Nat) (g : Globals)
    (hrun : ReportSt sendResult stream Globals.init = some (res, g')) :
    (ParseNodeSt node fields g).2 = g ∧
    g' = Globals.init ∧
    Report sendResult stream = some res ∧
    ParseNodeSt node fields g' = ParseNodeSt node fields Globals.init ∧
    (ParseNodeSt node fields g').1 = ParseNode node fields := by
  have hg : g' = Globals.init := ReportSt_preserves sendResult stream _ _ _ hrun
  refine ⟨rfl, hg, ?_, by rw [hg], by rw [hg]; rfl⟩
  rw [ReportSt_init] at hrun
  cases hrep : Report sendResult stream with
  | none => simp [hrep] at hrun
  | some v =>
    simp only [hrep, Option.map_some', Option.some.injEq, Prod.mk.injEq] at hrun
    rw [hrun.1]

/-- Witness for C13: the state after the worked example's report. -/
theorem ParseNode_stateless_witness :
    (ParseNodeSt (some exampleHop) (MASK_BIT0 ||| MASK_BIT5)
      Globals.init).1 = ParseNode (some exampleHop) (MASK_BIT0 ||| MASK_BIT5) :=
  (ParseNode_stateless none [Except.ok exampleReport, Except.error GoError.EOF]
    (([Event.Recv] ++ handleRequest exampleReport ++ [Event.Recv, Event.SendAndClose]), none)
    Globals.init (some exampleHop) (MASK_BIT0 ||| MASK_BIT5) Globals.init (by decide)).2.2.2.2

/-! ## Lemmas on masks and decoded attributes -/

theorem rowSet_iff_testBit (mask : Nat) (row : FieldGroup) :
    rowSet mask row ↔ mask.testBit (31 - row.bit) = true :=
  land_two_pow_ne_zero mask (31 - row.bit)

theorem rowSet_or (a b : Nat) (row : FieldGroup) :
    rowSet (a ||| b) row ↔ rowSet a row ∨ rowSet b row := by
  simp [rowSet_iff_testBit]

theorem attrsOf_congr_mask (rows : List FieldGroup) (node : Option IOAMNode) (m m' : Nat)
    (h : ∀ row ∈ rows, (rowSet m row ↔ rowSet m' row)) :
    attrsOf rows node m = attrsOf rows node m' := by
  induction rows with
  | nil => rfl
  | cons row rows ih =>
    rw [attrsOf_cons, attrsOf_cons, ih (fun r hr => h r (List.mem_cons_of_mem _ hr))]
    simp only [h row (List.mem_cons_self _ _)]

theorem attrsOf_eq_nil_of_unset (rows : List FieldGroup) (node : Option IOAMNode) (m : Nat)
    (h : ∀ row ∈ rows, ¬ rowSet m row) : attrsOf rows node m = [] := by
  induction rows with
  | nil => rfl
  | cons row rows ih =>
    rw [attrsOf_cons, ih (fun r hr => h r (List.mem_cons_of_mem _ hr))]
    simp [h row (List.mem_cons_self _ _)]

/-- Over rows listed by descending position, if every row selected by `a`
stands before every row selected by `b`, the attributes for `a ||| b` are those
for `a` followed by those for `b`. -/
theorem attrsOf_or (node : Option IOAMNode) (a b : Nat) : ∀ rows : List FieldGroup,
    rows.Pairwise (fun r s => 31 - s.bit < 31 - r.bit) →
    (∀ r ∈ rows, ∀ s ∈ rows, rowSet a r → rowSet b s → 31 - s.bit < 31 - r.bit) →
    attrsOf rows node (a ||| b) = attrsOf rows node a ++ attrsOf rows node b := by
  intro rows
  induction rows with
  | nil => intro _ _; rfl
  | cons r rest ih =>
    intro hsorted h
    rw [List.pairwise_cons] at hsorted
    by_cases hb : rowSet b r
    · have hnone : ∀ s ∈ r :: rest, ¬ rowSet a s := by
        intro s hs hsa
        have hlt := h s hs r (List.mem_cons_self _ _) hsa hb
        rcases List.mem_cons.1 hs with rfl | hs'
        · exact Nat.lt_irrefl _ hlt
        · exact Nat.lt_asymm hlt (hsorted.1 s hs')
      rw [attrsOf_eq_nil_of_unset _ node a hnone, List.nil_append]
      apply attrsOf_congr_mask
      intro s hs
      rw [rowSet_or]
      exact ⟨fun hor => hor.resolve_left (hnone s hs), Or.inr⟩
    · have hih := ih hsorted.2 (fun x hx y hy =>
        h x (List.mem_cons_of_mem _ hx) y (List.mem_cons_of_mem _ hy))
      have hor : rowSet (a ||| b) r ↔ rowSet a r := by
        rw [rowSet_or]
        exact ⟨fun h' => h'.resolve_right hb, Or.inl⟩
      rw [attrsOf_cons, attrsOf_cons, attrsOf_cons, hih]
      simp only [hor, hb, if_false, List.nil_append, List.append_assoc]

theorem fieldTable_sorted : fieldTable.Pairwise (fun r s => 31 - s.bit < 31 - r.bit) := by
  simp [fieldTable]

theorem row_mask_mem {row : FieldGroup} (h : row ∈ fieldTable) :
    2 ^ (31 - row.bit) ∈ definedMasks :=
  two_pow_mem_definedMasks _ (row_position_mem h)

theorem position_has_row : ∀ k ∈ definedPositions, ∃ row ∈ fieldTable, 31 - row.bit = k := by
  decide

theorem definedMask_testBit_mem : ∀ i < 32, definedMask.testBit i = true →
    i ∈ definedPositions := by
  decide

theorem land_definedMask_eq_zero_iff (m : Nat) :
    m &&& definedMask = 0 ↔ ∀ k ∈ definedPositions, m.testBit k = false := by
  constructor
  · intro h k hk
    have := congrArg (fun x => Nat.testBit x k) h
    simpa [definedMask_testBit k hk] using this
  · intro h
    apply Nat.eq_of_testBit_eq
    intro i
    rw [Nat.testBit_and, Nat.zero_testBit]
    by_cases hi : i < 32
    · cases hD : definedMask.testBit i
      · simp
      · simp [h i (definedMask_testBit_mem i hi hD)]
    · have hlt : definedMask < 2 ^ i :=
        Nat.lt_of_lt_of_le (by decide : definedMask < 2 ^ 32)
          (Nat.pow_le_pow_right (by decide) (Nat.le_of_not_lt hi))
      simp [Nat.testBit_lt_two_pow hlt]

theorem attrs_ne_nil {row : FieldGroup} (h : row ∈ fieldTable) (node : Option IOAMNode) :
    row.attrs node ≠ [] := by
  simp only [fieldTable, List.mem_cons, List.mem_singleton, List.not_mem_nil, or_false] at h
  rcases h with h | h | h | h | h | h | h | h | h | h | h | h | h <;> subst h <;> simp

theorem segmentChars_ne_nil (a : String × String) : segmentChars a ≠ [] := by
  simp [segmentChars]

/-- The output is empty exactly when no row is selected. -/
theorem ParseNode_eq_empty_iff_unset (node : Option IOAMNode) (m : Nat) :
    ParseNode node m = "" ↔ ∀ k ∈ definedPositions, m.testBit k = false := by
  rw [String.ext_iff, ParseNode_data]
  constructor
  · intro h k hk
    obtain ⟨row, hrow, hpos⟩ := position_has_row k hk
    by_contra hset
    have hrs : rowSet m row := by
      rw [rowSet_iff_testBit, hpos]
      simpa using hset
    obtain ⟨a, ha⟩ := List.exists_mem_of_ne_nil _ (attrs_ne_nil hrow node)
    have hmem : a ∈ attrsOf fieldTable node m := mem_attrsOf.2 ⟨row, hrow, hrs, ha⟩
    have hdata : (attrsOf fieldTable node m).flatMap segmentChars = [] := h
    rw [List.flatMap_eq_nil_iff] at hdata
    exact segmentChars_ne_nil a (hdata a hmem)
  · intro h
    rw [attrsOf_eq_nil_of_unset]
    · rfl
    · intro row hrow
      rw [rowSet_iff_testBit, h _ (row_position_mem hrow)]
      simp

/-- C14: `ParseNode` is a concatenation homomorphism over masks split along the
canonical order: if every defined mask constant set in `a` is numerically
greater than every defined mask constant set in `b`, then
`ParseNode(hop, a | b) = ParseNode(hop, a) ++ ParseNode(hop, b)`. -/
theorem ParseNode_or_append (node : Option IOAMNode) (a b : Nat)
    (h : ∀ M ∈ definedMasks, ∀ N ∈ definedMasks, a &&& M ≠ 0 → b &&& N ≠ 0 → N < M) :
    ParseNode node (a ||| b) = ParseNode node a ++ ParseNode node b := by
  rw [String.ext_iff, String.data_append, ParseNode_data, ParseNode_data, ParseNode_data,
    ← List.flatMap_append]
  congr 1
  apply attrsOf_or node a b fieldTable fieldTable_sorted
  intro r hr s hs har hbs
  have hlt := h _ (row_mask_mem hr) _ (row_mask_mem hs) har hbs
  exact (Nat.pow_lt_pow_iff_right (by decide)).1 hlt

/-- Witness for C14: the short hop-limit group before the namespace data. -/
theorem ParseNode_or_append_witness :
    ParseNode (some exampleHop) (MASK_BIT0 ||| MASK_BIT5)
      = ParseNode (some exampleHop) MASK_BIT0 ++ ParseNode (some exampleHop) MASK_BIT5 :=
  ParseNode_or_append (some exampleHop) MASK_BIT0 MASK_BIT5 (by decide)

/-- C15: for every hop and every mask, `ParseNode` returns the empty string if
and only if the mask has none of the thirteen defined bits set, that is
`mask & 0xFFF00200 = 0`. -/
theorem ParseNode_eq_empty_iff (node : Option IOAMNode) (m : Nat) :
    (ParseNode node m = "" ↔ m &&& 0xFFF00200 = 0) ∧
    definedMask = 0xFFF00200 ∧
    ParseNode node 0x000FFDFF = "" ∧
    ParseNode none MASK_BIT2 = "TimestampSecs=0; " := by
  have hD : definedMask = 0xFFF00200 := by decide
  have hiff : ∀ x, ParseNode node x = "" ↔ x &&& 0xFFF00200 = 0 := by
    intro x
    rw [ParseNode_eq_empty_iff_unset, ← hD, land_definedMask_eq_zero_iff]
  exact ⟨hiff m, hD, (hiff _).2 (by decide), by decide⟩

/-! ## Lemmas on the segments of the output -/

theorem decimalDigits_not_separator : ∀ c ∈ decimalDigits, c ∉ separators := by decide

theorem hextable_not_separator : ∀ c ∈ hextable, c ∉ separators := by decide

theorem ValueForm.not_separator {v : String} (h : ValueForm v) :
    ∀ c ∈ v.data, c ∉ separators := by
  intro c hc
  rcases h with h | ⟨l, hl⟩
  · exact decimalDigits_not_separator c (h c hc)
  · rw [hl] at hc
    simp only [List.mem_cons] at hc
    rcases hc with rfl | rfl | hc
    · decide
    · decide
    · exact hextable_not_separator c (Encode_mem l c hc)

theorem ValueForm_decimal (n : Nat) : ValueForm (decimal n) := Or.inl (FormatUint_digits n)

theorem ValueForm_hex0x (b : Bytes) : ValueForm (hex0x b) := Or.inr ⟨b.elems, rfl⟩

theorem form_mk (name value : String) (hn : ∀ c ∈ name.data, c ∉ separators)
    (hv : ValueForm value) :
    (∀ c ∈ (name, value).1.data, c ∉ separators) ∧ ValueForm (name, value).2 :=
  ⟨hn, hv⟩

/-- Every attribute of the table has a name without separator characters and
a value that is decimal or `0x`-prefixed hex. -/
theorem attr_form {row : FieldGroup} (h : row ∈ fieldTable) (node : Option IOAMNode) :
    ∀ a ∈ row.attrs node, (∀ c ∈ a.1.data, c ∉ separators) ∧ ValueForm a.2 := by
  intro a ha
  simp only [fieldTable, List.mem_cons, List.mem_singleton, List.not_mem_nil, or_false] at h
  rcases h with h | h | h | h | h | h | h | h | h | h | h | h | h <;> subst h <;>
    simp only [List.mem_cons, List.mem_singleton, List.not_mem_nil, or_false] at ha <;>
    first
      | (rcases ha with rfl | rfl <;>
          first
            | exact form_mk _ _ (by decide) (ValueForm_decimal _)
            | exact form_mk _ _ (by decide) (ValueForm_hex0x _))

theorem attrsOf_form (node : Option IOAMNode) (m : Nat) :
    ∀ a ∈ attrsOf fieldTable node m, (∀ c ∈ a.1.data, c ∉ separators) ∧ ValueForm a.2 := by
  intro a ha
  obtain ⟨row, hrow, _, harow⟩ := mem_attrsOf.1 ha
  exact attr_form hrow node a harow

theorem attrsOf_clean (node : Option IOAMNode) (m : Nat) :
    ∀ a ∈ attrsOf fieldTable node m, Clean a := by
  intro a ha c hc
  obtain ⟨hname, hvalue⟩ := attrsOf_form node m a ha
  rcases List.mem_append.1 hc with h | h
  · exact hname c h
  · exact hvalue.not_separator c h

theorem Clean.not_mem {a : String × String} (h : Clean a) {s : Char} (hs : s ∈ separators) :
    s ∉ a.1.data ∧ s ∉ a.2.data :=
  ⟨fun hm => h s (List.mem_append_left _ hm) hs, fun hm => h s (List.mem_append_right _ hm) hs⟩

theorem count_semicolon_segments : ∀ attrs : List (String × String),
    (∀ a ∈ attrs, Clean a) → (attrs.flatMap segmentChars).count ';' = attrs.length := by
  intro attrs
  induction attrs with
  | nil => intro _; rfl
  | cons a rest ih =>
    intro h
    obtain ⟨h1, h2⟩ := (h a (List.mem_cons_self _ _)).not_mem (s := ';') (by decide)
    rw [List.flatMap_cons, List.count_append, ih (fun x hx => h x (List.mem_cons_of_mem _ hx))]
    simp [segmentChars, List.count_append, List.count_cons, List.count_eq_zero.2 h1,
      List.count_eq_zero.2 h2]
    omega

theorem count_equals_segments : ∀ attrs : List (String × String),
    (∀ a ∈ attrs, Clean a) → (attrs.flatMap segmentChars).count '=' = attrs.length := by
  intro attrs
  induction attrs with
  | nil => intro _; rfl
  | cons a rest ih =>
    intro h
    obtain ⟨h1, h2⟩ := (h a (List.mem_cons_self _ _)).not_mem (s := '=') (by decide)
    rw [List.flatMap_cons, List.count_append, ih (fun x hx => h x (List.mem_cons_of_mem _ hx))]
    simp [segmentChars, List.count_append, List.count_cons, List.count_eq_zero.2 h1,
      List.count_eq_zero.2 h2]
    omega

theorem countPair_cons_ne {x y c : Char} (h : c ≠ x) (l : List Char) :
    countPair x y (c :: l) = countPair x y l := by
  cases l with
  | nil => rfl
  | cons b rest => simp [countPair, h]

theorem countPair_skip {x y : Char} : ∀ (w rest : List Char), x ∉ w →
    countPair x y (w ++ rest) = countPair x y rest := by
  intro w
  induction w with
  | nil => intro rest _; rfl
  | cons c w ih =>
    intro rest h
    rw [List.cons_append,
      countPair_cons_ne (fun hc => h (by subst hc; exact List.mem_cons_self _ _))]
    exact ih rest (fun hm => h (List.mem_cons_of_mem _ hm))

theorem countPair_segments : ∀ attrs : List (String × String),
    (∀ a ∈ attrs, Clean a) → countPair ';' ' ' (attrs.flatMap segmentChars) = attrs.length := by
  intro attrs
  induction attrs with
  | nil => intro _; rfl
  | cons a rest ih =>
    intro h
    obtain ⟨h1, h2⟩ := (h a (List.mem_cons_self _ _)).not_mem (s := ';') (by decide)
    have hw : ';' ∉ a.1.data ++ '=' :: a.2.data := by
      simp only [List.mem_append, List.mem_cons, not_or]
      exact ⟨h1, by decide, h2⟩
    have hshape : (a :: rest).flatMap segmentChars
        = (a.1.data ++ '=' :: a.2.data) ++ ';' :: ' ' :: rest.flatMap segmentChars := by
      simp [List.flatMap_cons, segmentChars]
    rw [hshape, countPair_skip _ _ hw, countPair,
      countPair_cons_ne (by decide : ' ' ≠ ';'), ih (fun x hx => h x (List.mem_cons_of_mem _ hx))]
    simp
    omega

theorem cutAt_append (c : Char) : ∀ (w rest : List Char), c ∉ w →
    cutAt c (w ++ c :: rest) = (w, rest) := by
  intro w
  induction w with
  | nil => intro rest _; simp [cutAt]
  | cons x w ih =>
    intro rest h
    have hx : x ≠ c := fun hc => h (by subst hc; exact List.mem_cons_self _ _)
    simp [cutAt, hx, ih rest (fun hm => h (List.mem_cons_of_mem _ hm))]

theorem parseSegmentsAux_cons (fuel : Nat) (l : List Char) (h : l ≠ []) :
    parseSegmentsAux (fuel + 1) l
      = (String.mk (cutAt '=' l).1, String.mk (cutAt ';' (cutAt '=' l).2).1)
        :: parseSegmentsAux fuel ((cutAt ';' (cutAt '=' l).2).2.drop 1) := by
  cases l with
  | nil => exact absurd rfl h
  | cons x xs => rfl

/-- Reading the segments off the concatenated segments of clean attributes
gives the attributes back. -/
theorem parseSegmentsAux_segments : ∀ (attrs : List (String × String)) (fuel : Nat),
    (∀ a ∈ attrs, Clean a) → attrs.length ≤ fuel →
    parseSegmentsAux fuel (attrs.flatMap segmentChars) = attrs := by
  intro attrs
  induction attrs with
  | nil => intro fuel _ _; cases fuel <;> rfl
  | cons a rest ih =>
    intro fuel h hfuel
    obtain ⟨f, rfl⟩ : ∃ f, fuel = f + 1 := ⟨fuel - 1, by simp at hfuel; omega⟩
    obtain ⟨h1, _⟩ := (h a (List.mem_cons_self _ _)).not_mem (s := '=') (by decide)
    obtain ⟨_, h2⟩ := (h a (List.mem_cons_self _ _)).not_mem (s := ';') (by decide)
    have hshape : (a :: rest).flatMap segmentChars
        = a.1.data ++ '=' :: (a.2.data ++ ';' :: ' ' :: rest.flatMap segmentChars) := by
      simp [List.flatMap_cons, segmentChars]
    rw [hshape, parseSegmentsAux_cons _ _ (by simp), cutAt_append _ _ _ h1]
    simp only [cutAt_append _ _ _ h2, List.drop_succ_cons, List.drop_zero]
    rw [ih f (fun x hx => h x (List.mem_cons_of_mem _ hx)) (by simp at hfuel; omega)]

theorem length_le_flatMap_segmentChars (attrs : List (String × String)) :
    attrs.length ≤ (attrs.flatMap segmentChars).length := by
  induction attrs with
  | nil => simp
  | cons a rest ih =>
    simp only [List.flatMap_cons, List.length_append, List.length_cons, segmentChars]
    omega

theorem suffix_segments (attrs : List (String × String)) (h : attrs ≠ []) :
    [';', ' '] <:+ attrs.flatMap segmentChars := by
  obtain ⟨init, last, rfl⟩ : ∃ init last, attrs = init ++ [last] := by
    rcases List.eq_nil_or_concat attrs with h' | ⟨init, last, h'⟩
    · exact absurd h' h
    · exact ⟨init, last, by simpa using h'⟩
  refine ⟨init.flatMap segmentChars ++ (last.1.data ++ '=' :: last.2.data), ?_⟩
  simp [List.flatMap_append, segmentChars]

theorem length_attrsOf (node : Option IOAMNode) (m : Nat) :
    (attrsOf fieldTable node m).length = segmentCount m := by
  have hgen : ∀ rows : List FieldGroup, (attrsOf rows node m).length
      = (rows.map fun row => if rowSet m row then (row.attrs node).length else 0).sum := by
    intro rows
    induction rows with
    | nil => rfl
    | cons row rows ih =>
      rw [attrsOf_cons, List.length_append, ih]
      by_cases h : rowSet m row <;> simp [h]
  rw [hgen]
  simp [fieldTable, segmentCount, definedBits, groupWeight, rowSet]

/-- The segments read off the output are the decoded attributes. -/
theorem parseSegments_ParseNode (node : Option IOAMNode) (m : Nat) :
    parseSegments (ParseNode node m) = attrsOf fieldTable node m := by
  unfold parseSegments
  rw [ParseNode_data]
  exact parseSegmentsAux_segments _ _ (attrsOf_clean node m)
    (length_le_flatMap_segmentChars _)

/-! ## Lemmas on attribute names -/

theorem filter_name_attrsOf_nil (rows : List FieldGroup) (node : Option IOAMNode) (m : Nat)
    (name : String) (h : ∀ row ∈ rows, ∀ a ∈ row.attrs node, a.1 ≠ name) :
    (attrsOf rows node m).filter (fun a => a.1 = name) = [] := by
  rw [List.filter_eq_nil_iff]
  intro a ha
  obtain ⟨row, hrow, _, harow⟩ := mem_attrsOf.1 ha
  simpa using h row hrow a harow

theorem names_sublist (rows : List FieldGroup) (node : Option IOAMNode) (m : Nat) :
    ((attrsOf rows node m).map Prod.fst).Sublist
      (rows.flatMap fun row => (row.attrs node).map Prod.fst) := by
  induction rows with
  | nil => exact List.Sublist.refl _
  | cons row rows ih =>
    rw [attrsOf_cons, List.map_append, List.flatMap_cons]
    refine List.Sublist.append ?_ ih
    by_cases h : rowSet m row
    · simp [h]
    · simp [h]

/-- The names emitted when the short hop-limit group is not selected are
pairwise distinct. -/
theorem names_nodup_without_bit0 (node : Option IOAMNode) (m : Nat)
    (h : m &&& MASK_BIT0 = 0) : ((attrsOf fieldTable node m).map Prod.fst).Nodup := by
  have hT : fieldTable = fieldTable.take 1 ++ fieldTable.drop 1 := rfl
  have hunset : ∀ row ∈ fieldTable.take 1, ¬ rowSet m row := by
    intro row hrow
    simp only [fieldTable, List.take, List.mem_singleton] at hrow
    subst hrow
    exact fun hs => hs h
  rw [hT, attrsOf_append, attrsOf_eq_nil_of_unset _ node m hunset, List.nil_append]
  refine (names_sublist _ node m).nodup ?_
  simp [fieldTable]

/-- The names emitted when the wide hop-limit group is not selected are
pairwise distinct. -/
theorem names_nodup_without_bit8 (node : Option IOAMNode) (m : Nat)
    (h : m &&& MASK_BIT8 = 0) : ((attrsOf fieldTable node m).map Prod.fst).Nodup := by
  have hT : fieldTable = fieldTable.take 8
      ++ ((fieldTable.drop 8).take 1 ++ fieldTable.drop 9) := rfl
  have hunset : ∀ row ∈ (fieldTable.drop 8).take 1, ¬ rowSet m row := by
    intro row hrow
    simp only [fieldTable, List.drop, List.take, List.mem_singleton] at hrow
    subst hrow
    exact fun hs => hs h
  rw [hT, attrsOf_append, attrsOf_append, attrsOf_eq_nil_of_unset _ node m hunset,
    List.nil_append, ← attrsOf_append]
  refine (names_sublist _ node m).nodup ?_
  simp [fieldTable]

/-- With both hop-limit groups selected, the attributes named `HopLimit` are
the two with the value of the hop's hop-limit field. -/
theorem filter_HopLimit (node : Option IOAMNode) (m : Nat)
    (h0 : m &&& MASK_BIT0 ≠ 0) (h8 : m &&& MASK_BIT8 ≠ 0) :
    (attrsOf fieldTable node m).filter (fun a => a.1 = "HopLimit")
      = [("HopLimit", decimal (GetHopLimit node)), ("HopLimit", decimal (GetHopLimit node))] := by
  have s0 : rowSet m
      ⟨0, fun n => [("HopLimit", decimal (GetHopLimit n)), ("Id", decimal (GetId n))]⟩ := h0
  have s8 : rowSet m
      ⟨8, fun n => [("HopLimit", decimal (GetHopLimit n)),
        ("IdWide", decimal (GetIdWide n))]⟩ := h8
  have hT : fieldTable
      = ⟨0, fun n => [("HopLimit", decimal (GetHopLimit n)), ("Id", decimal (GetId n))]⟩
        :: ((fieldTable.drop 1).take 7
          ++ ⟨8, fun n => [("HopLimit", decimal (GetHopLimit n)),
                ("IdWide", decimal (GetIdWide n))]⟩ :: fieldTable.drop 9) := rfl
  have hmid : ∀ row ∈ (fieldTable.drop 1).take 7, ∀ a ∈ row.attrs node, a.1 ≠ "HopLimit" := by
    intro row hrow a ha
    simp only [fieldTable, List.drop, List.take, List.mem_cons, List.mem_singleton,
      List.not_mem_nil, or_false] at hrow
    rcases hrow with h | h | h | h | h | h | h <;> subst h <;>
      simp only [List.mem_cons, List.mem_singleton, List.not_mem_nil, or_false] at ha <;>
      rcases ha with rfl | rfl <;> simp
  have htail : ∀ row ∈ fieldTable.drop 9, ∀ a ∈ row.attrs node, a.1 ≠ "HopLimit" := by
    intro row hrow a ha
    simp only [fieldTable, List.drop, List.mem_cons, List.mem_singleton,
      List.not_mem_nil, or_false] at hrow
    rcases hrow with h | h | h | h <;> subst h <;>
      simp only [List.mem_cons, List.mem_singleton, List.not_mem_nil, or_false] at ha <;>
      rcases ha with rfl | rfl <;> simp
  rw [hT, attrsOf_cons, attrsOf_append, attrsOf_cons]
  simp only [s0, s8, if_true, List.filter_append,
    filter_name_attrsOf_nil _ node m "HopLimit" hmid,
    filter_name_attrsOf_nil _ node m "HopLimit" htail]
  simp [List.filter_cons]

/-! ## Theorems on the segments of the output -/

/-- C16: attribute names are not unique within one hop's output.  For every
hop and every mask with both `MASK_BIT0` and `MASK_BIT8` set, the segments of
the output named `HopLimit` are exactly two, both with the value of the hop's
single hop-limit field; with exactly those two bits set the output is
`HopLimit=h; Id=i; HopLimit=h; IdWide=w; `.  For every mask with at most one of
the two bits set, no attribute name occurs more than once. -/
theorem HopLimit_emitted_twice (node : Option IOAMNode) (m m' : Nat)
    (h0 : m &&& MASK_BIT0 ≠ 0) (h8 : m &&& MASK_BIT8 ≠ 0)
    (hone : m' &&& MASK_BIT0 = 0 ∨ m' &&& MASK_BIT8 = 0) :
    (parseSegments (ParseNode node m)).filter (fun a => a.1 = "HopLimit")
      = [("HopLimit", decimal (GetHopLimit node)), ("HopLimit", decimal (GetHopLimit node))] ∧
    (parseSegments (ParseNode node m)).count ("HopLimit", decimal (GetHopLimit node)) = 2 ∧
    ParseNode node (MASK_BIT0 ||| MASK_BIT8)
      = "HopLimit=" ++ decimal (GetHopLimit node) ++ "; " ++ "Id=" ++ decimal (GetId node)
        ++ "; " ++ "HopLimit=" ++ decimal (GetHopLimit node) ++ "; " ++ "IdWide="
        ++ decimal (GetIdWide node) ++ "; " ∧
    ((parseSegments (ParseNode node m')).map Prod.fst).Nodup := by
  have hfilter := filter_HopLimit node m h0 h8
  refine ⟨?_, ?_, ?_, ?_⟩
  · rw [parseSegments_ParseNode]
    exact hfilter
  · rw [parseSegments_ParseNode]
    have hcount : (attrsOf fieldTable node m).count ("HopLimit", decimal (GetHopLimit node))
        = ((attrsOf fieldTable node m).filter (fun a => a.1 = "HopLimit")).count
            ("HopLimit", decimal (GetHopLimit node)) := by
      rw [List.count_filter]
      simp
    rw [hcount, hfilter]
    simp
  · have h08 : MASK_BIT0 ||| MASK_BIT8 = 2 ^ 31 ||| 2 ^ 23 := by decide
    rw [ParseNode_eq_tableDecode, h08]
    simp only [tableDecode, fieldTable, List.map, land_two_pow_ne_zero, Nat.testBit_or,
      Nat.testBit_two_pow]
    have e1 : ∀ s : String, "; " ++ ("Id=" ++ s) = "; Id=" ++ s :=
      fun s => by rw [← String.append_assoc]; rfl
    have e2 : ∀ s : String, "; " ++ ("HopLimit=" ++ s) = "; HopLimit=" ++ s :=
      fun s => by rw [← String.append_assoc]; rfl
    have e3 : ∀ s : String, "; " ++ ("IdWide=" ++ s) = "; IdWide=" ++ s :=
      fun s => by rw [← String.append_assoc]; rfl
    simp [String.join, rowSegments, segment, String.append_assoc, e1, e2, e3]
  · rw [parseSegments_ParseNode]
    rcases hone with h | h
    · exact names_nodup_without_bit0 node m' h
    · exact names_nodup_without_bit8 node m' h

/-- Witness for C16: the mask with the two hop-limit groups, and the mask with
the short one only. -/
theorem HopLimit_emitted_twice_witness :
    (parseSegments (ParseNode (some exampleHop) (MASK_BIT0 ||| MASK_BIT8))).filter
        (fun a => a.1 = "HopLimit")
      = [("HopLimit", decimal (GetHopLimit (some exampleHop))),
         ("HopLimit", decimal (GetHopLimit (some exampleHop)))] :=
  (HopLimit_emitted_twice (some exampleHop) (MASK_BIT0 ||| MASK_BIT8) MASK_BIT0
    (by decide) (by decide) (Or.inr (by decide))).1

/-- C17: the output of `ParseNode` splits unambiguously into its segments.
Reading `Name=Value; ` segments off the output gives the decoded attributes;
no emitted value contains `;`, `=` or a space, each value being decimal digits
or `0x` followed by lowercase hex digits; the numbers of `;` characters, of `=`
characters and of `; ` terminators in the output all equal the sum, over the
defined bits set in the mask, of the group weights; and a non-empty output ends
with `; `. -/
theorem ParseNode_output_splittable (node : Option IOAMNode) (m : Nat) :
    parseSegments (ParseNode node m) = attrsOf fieldTable node m ∧
    (∀ a ∈ parseSegments (ParseNode node m), ∀ c ∈ a.2.data, c ∉ [';', '=', ' ']) ∧
    (∀ a ∈ parseSegments (ParseNode node m),
      (∀ c ∈ a.2.data, c ∈ "0123456789".data)
        ∨ ∃ hexs : List Char, a.2.data = '0' :: 'x' :: hexs
            ∧ ∀ c ∈ hexs, c ∈ "0123456789abcdef".data) ∧
    (parseSegments (ParseNode node m)).length = segmentCount m ∧
    (ParseNode node m).data.count ';' = segmentCount m ∧
    (ParseNode node m).data.count '=' = segmentCount m ∧
    countPair ';' ' ' (ParseNode node m).data = segmentCount m ∧
    (ParseNode node m = "" ∨ [';', ' '] <:+ (ParseNode node m).data) := by
  have hparse := parseSegments_ParseNode node m
  have hclean := attrsOf_clean node m
  have hlen := length_attrsOf node m
  refine ⟨hparse, ?_, ?_, ?_, ?_, ?_, ?_, ?_⟩
  · rw [hparse]
    intro a ha c hc
    exact ((attrsOf_form node m a ha).2.not_separator c hc)
  · rw [hparse]
    intro a ha
    rcases (attrsOf_form node m a ha).2 with h | ⟨l, hl⟩
    · exact Or.inl h
    · exact Or.inr ⟨Encode l, hl, Encode_mem l⟩
  · rw [hparse, hlen]
  · rw [ParseNode_data, count_semicolon_segments _ hclean, hlen]
  · rw [ParseNode_data, count_equals_segments _ hclean, hlen]
  · rw [ParseNode_data, countPair_segments _ hclean, hlen]
  · by_cases hnil : attrsOf fieldTable node m = []
    · left
      rw [String.ext_iff, ParseNode_data, hnil]
      rfl
    · right
      rw [ParseNode_data]
      exact suffix_segments _ hnil

example : segmentCount (MASK_BIT0 ||| MASK_BIT5) = 3 := by decide
example : parseSegments (ParseNode (some exampleHop) (MASK_BIT0 ||| MASK_BIT5))
    = [("HopLimit", "64"), ("Id", "7"), ("NamespaceData", "0xabcd")] := by decide
example : ParseNode (some exampleHop) (MASK_BIT0 ||| MASK_BIT8)
    = "HopLimit=64; Id=7; HopLimit=64; IdWide=0; " := by decide

end IoamCollector
